import Mathlib

/-!
Shallow embedding of the K-map solver in `src/lib/kmap.ts` (TypeScript).

Strings of the source are modelled as `List Char`, JS arrays as `List`,
JS `Map`/`Set` as association lists / duplicate-free lists that keep
insertion order (matching the iteration order of JS maps and sets), and
the one `throw` as an `Except String` result.  The unbounded `while`
loop of the implicant generator is modelled with explicit fuel; the fuel
chosen in `allPrimeOf` is proved sufficient (the result is unchanged by
any larger fuel, see `qmLoop_stable`), so the model agrees with the
source's unbounded loop.
-/

set_option maxHeartbeats 1000000

namespace KMap

/-- `Implicant` of kmap.ts: a bit pattern over {0,1,-} plus covered minterms. -/
structure Implicant where
  bits : List Char
  covered : List Nat
deriving DecidableEq, Repr

instance : Inhabited Implicant := ⟨⟨[], []⟩⟩

/-- `SolveOptions` of kmap.ts (optional fields are `Option`s, as in JS). -/
structure SolveOptions where
  numInputs : Nat
  minterms : List Nat
  dontCares : Option (List Nat)
  vars : Option (List String)
deriving DecidableEq, Repr

/-- `SolveResult` of kmap.ts. -/
structure SolveResult where
  numInputs : Nat
  primeImplicants : List Implicant
  essentialPrimeImplicants : List Implicant
  selectedImplicants : List Implicant
  expression : String
  latex : String
deriving DecidableEq, Repr

/-- `DEFAULT_VARS` of kmap.ts. -/
def DEFAULT_VARS : List String := ["A", "B", "C", "D", "E", "F"]

/-- Binary digits of `n`, most significant first; `[]` for `0`
(JS `n.toString(2)` without the special case for zero).  The first
argument is structural fuel; `n` itself is always enough. -/
def binDigitsAux : Nat → Nat → List Char
  | 0, _ => []
  | fuel + 1, n =>
    if n = 0 then []
    else binDigitsAux fuel (n / 2) ++ [if n % 2 = 1 then '1' else '0']

def binDigits (n : Nat) : List Char := binDigitsAux n n

/-- `toBinary` of kmap.ts: `n.toString(2).padStart(width, '0')`.
`padStart` never truncates: for `n ≥ 2^width` the result is longer
than `width`. -/
def toBinary (n width : Nat) : List Char :=
  let core := if n = 0 then ['0'] else binDigits n
  List.replicate (width - core.length) '0' ++ core

/-- `countOnes` of kmap.ts. -/
def countOnes (s : List Char) : Nat := s.countP (fun c => c = '1')

/-- Loop body of `combine` of kmap.ts: walks the indices of `a`; a missing
character of `b` (JS `undefined`) compares unequal to any character of `a`
and is not `'-'`, hence counts as a concrete difference. -/
def combineGo : List Char → List Char → Nat → Option (List Char)
  | [], _, diff => if diff = 1 then some [] else none
  | ca :: as, cb :: bs, diff =>
    if ca = cb then (combineGo as bs diff).map (fun t => ca :: t)
    else if ca ≠ '-' ∧ cb ≠ '-' then
      if diff + 1 > 1 then none
      else (combineGo as bs (diff + 1)).map (fun t => '-' :: t)
    else none
  | ca :: as, [], diff =>
    if ca ≠ '-' then
      if diff + 1 > 1 then none
      else (combineGo as [] (diff + 1)).map (fun t => '-' :: t)
    else none

/-- `combine` of kmap.ts. -/
def combine (a b : List Char) : Option (List Char) := combineGo a b 0

/-- `uniqueByBits` of kmap.ts (keeps the first implicant of each bit
pattern, in order), with the `seen` set as an explicit accumulator. -/
def uniqueByBitsAux : List Implicant → List (List Char) → List Implicant
  | [], _ => []
  | imp :: rest, seen =>
    if imp.bits ∈ seen then uniqueByBitsAux rest seen
    else imp :: uniqueByBitsAux rest (imp.bits :: seen)

def uniqueByBits (imps : List Implicant) : List Implicant := uniqueByBitsAux imps []

/-- `coveredBy` of kmap.ts: compares positions `0..width-1` only; a pattern
shorter than `width` fails (JS `undefined !== b[i]`), a pattern longer than
`width` is compared on its first `width` characters. -/
def coveredBy (bits : List Char) (m width : Nat) : Bool :=
  let b := toBinary m width
  (List.range width).all (fun i =>
    match bits[i]? with
    | none => false
    | some ch => if ch = '-' then true else decide (b[i]? = some ch))

/-- `expandCoverage` of kmap.ts. -/
def expandCoverage (bits : List Char) (univ : List Nat) (width : Nat) : List Nat :=
  univ.filter (fun m => coveredBy bits m width)

/-- The apostrophe used for complemented literals. -/
def primeMark : String := Char.toString '\x27'

/-- The literal tokens pushed by `formatImplicant` of kmap.ts.  For an
index beyond `vars` JS pushes `undefined`, which `join('')` renders as
the empty string, while `undefined + "'"` renders as `"undefined'"`. -/
def litTokens (bits : List Char) (vars : List String) : List String :=
  (List.range bits.length).filterMap (fun i =>
    match bits[i]? with
    | none => none
    | some ch =>
      if ch = '-' then none
      else if ch = '1' then some (vars.getD i "")
      else some (vars.getD i "undefined" ++ primeMark))

/-- `formatImplicant` of kmap.ts. -/
def formatImplicant (bits : List Char) (vars : List String) : String :=
  let out := litTokens bits vars
  if out.length = 0 then "1" else String.join out

/-- The tokens pushed by `formatImplicantLatex` of kmap.ts (template
literals render a JS `undefined` variable as `"undefined"`). -/
def latexTokens (bits : List Char) (vars : List String) : List String :=
  (List.range bits.length).filterMap (fun i =>
    match bits[i]? with
    | none => none
    | some ch =>
      if ch = '-' then none
      else if ch = '1' then some (vars.getD i "")
      else some ("\\overline\x7b" ++ vars.getD i "undefined" ++ "\x7d"))

/-- `formatImplicantLatex` of kmap.ts. -/
def formatImplicantLatex (bits : List Char) (vars : List String) : String :=
  let out := latexTokens bits vars
  if out.length = 0 then "1" else String.intercalate " " out

/-- first-occurrence deduplication: JS `Array.from(new Set(xs))`. -/
def dedupFirstAux : List Nat → List Nat → List Nat
  | [], _ => []
  | x :: rest, seen =>
    if x ∈ seen then dedupFirstAux rest seen
    else x :: dedupFirstAux rest (x :: seen)

def dedupFirst (l : List Nat) : List Nat := dedupFirstAux l []

/-- JS `Set.add`: append unless already present. -/
def addIfNew {α : Type} [DecidableEq α] (l : List α) (x : α) : List α :=
  if x ∈ l then l else l ++ [x]

/-- JS numeric-comparator sort `(a,b)=>a-b`. -/
def sortNat (l : List Nat) : List Nat := List.insertionSort (· ≤ ·) l

/-- the comparator `(a,b)=>a.length-b.length` of kmap.ts as a relation. -/
def lenLe (a b : List Nat) : Prop := a.length ≤ b.length

instance : DecidableRel lenLe := fun a b => Nat.decLe a.length b.length

instance : IsTotal (List Nat) lenLe := ⟨fun a b => Nat.le_total a.length b.length⟩

instance : IsTrans (List Nat) lenLe := ⟨fun _ _ _ h1 h2 => Nat.le_trans h1 h2⟩

/-- JS stable `sort((a,b)=>a.length-b.length)` (ES2019 sorts are stable;
insertion sort is the stable sort of the same comparator). -/
def sortByLen (l : List (List Nat)) : List (List Nat) := List.insertionSort lenLe l

/-- `isSubset` of kmap.ts. -/
def isSubset (a b : List Nat) : Bool := a.all (fun x => x ∈ b)

/-- The dominance scan of `minimizeSets` of kmap.ts: walk `unique`; if an
element is a subset of `s`, stop dominated (list kept as is); if `s` is a
subset of an element, splice that element out and continue. -/
def domScan : List (List Nat) → List Nat → Bool × List (List Nat)
  | [], _ => (false, [])
  | u :: rest, s =>
    if isSubset u s then (true, u :: rest)
    else if isSubset s u then domScan rest s
    else
      let r := domScan rest s
      (r.1, u :: r.2)

/-- One iteration of the `for` loop of `minimizeSets` (state: `unique`,
`seen`; the JS `seen` set of join-keys is a list of the arrays themselves,
`join(',')` being injective on number arrays). -/
def msStep (st : List (List Nat) × List (List Nat)) (s : List Nat) :
    List (List Nat) × List (List Nat) :=
  if s ∈ st.2 then st
  else
    let r := domScan st.1 s
    if r.1 then (r.2, st.2)
    else (r.2 ++ [s], st.2 ++ [s])

/-- `minimizeSets` of kmap.ts. -/
def minimizeSets (sets : List (List Nat)) : List (List Nat) :=
  ((sortByLen sets).foldl msStep ([], [])).1

/-- The cross-product step of `petricksMethod` of kmap.ts:
`Array.from(new Set([...sol, c])).sort((a,b)=>a-b)` for each solution and
each choice, in enumeration order. -/
def petrickExpand (sols : List (List Nat)) (choices : List Nat) : List (List Nat) :=
  sols.flatMap (fun sol => choices.map (fun c => sortNat (dedupFirst (sol ++ [c]))))

/-- The solution set after folding in all clauses (`solutions` at the end
of the `for` loop of `petricksMethod`). -/
def petrickSolutions (coverSets : List (List Nat)) : List (List Nat) :=
  coverSets.foldl (fun sols choices => minimizeSets (petrickExpand sols choices)) [[]]

/-- `petricksMethod` of kmap.ts. -/
def petricksMethod (coverSets : List (List Nat)) : List Nat :=
  (sortByLen (petrickSolutions coverSets)).headD []

/-- JS `Map` (numeric keys) lookup: first matching entry, else default. -/
def nmapGetD {β : Type} : List (Nat × β) → Nat → β → β
  | [], _, d => d
  | e :: rest, k, d => if e.1 = k then e.2 else nmapGetD rest k d

/-- JS `Map.set`: replace the entry in place, else append (insertion order). -/
def nmapSet {β : Type} : List (Nat × β) → Nat → β → List (Nat × β)
  | [], k, v => [(k, v)]
  | e :: rest, k, v => if e.1 = k then (k, v) :: rest else e :: nmapSet rest k v

/-- The implicants of a group map, in JS iteration order
(`for (const [,arr] of groups) for (const imp of arr)`). -/
def allImps (g : List (Nat × List Implicant)) : List Implicant :=
  g.flatMap (fun e => e.2)

/-- Insertion of one universe element into the initial groups. -/
def initStep (width : Nat) (g : List (Nat × List Implicant)) (m : Nat) :
    List (Nat × List Implicant) :=
  let bits := toBinary m width
  let ones := countOnes bits
  nmapSet g ones (nmapGetD g ones [] ++ [⟨bits, [m]⟩])

/-- Step 1 of `minimizeKMapJS`: initial implicant groups keyed by ones count. -/
def initGroups (univ : List Nat) (width : Nat) : List (Nat × List Implicant) :=
  univ.foldl (initStep width) []

/-- The candidate pairs of one combining round, in JS enumeration order:
adjacent key groups (keys sorted ascending), then `a` in the lower group,
then `b` in the higher group. -/
def pairsOf (g : List (Nat × List Implicant)) : List (Implicant × Implicant) :=
  let keys := sortNat (g.map (fun e => e.1))
  (List.range (keys.length - 1)).flatMap (fun gi =>
    (nmapGetD g (keys.getD gi 0) []).flatMap (fun a =>
      (nmapGetD g (keys.getD (gi + 1) 0) []).map (fun b => (a, b))))

/-- Insertion of a merged implicant into `nextGroups` (keyed by the ones
count of the concrete characters; skipped if the group already holds the
same bit pattern). -/
def insertMerged (g : List (Nat × List Implicant)) (imp : Implicant) :
    List (Nat × List Implicant) :=
  let ones := countOnes (imp.bits.filter (fun c => c ≠ '-'))
  let arr := nmapGetD g ones []
  if arr.any (fun x => x.bits = imp.bits) then g
  else nmapSet g ones (arr ++ [imp])

/-- State of one combining round: `nextGroups`, the `taken` set of merged
bit patterns, and the `anyCombined` flag. -/
structure StepState where
  next : List (Nat × List Implicant)
  taken : List (List Char)
  anyC : Bool
deriving Repr

/-- Processing of one candidate pair inside the round. -/
def procPair (st : StepState) (p : Implicant × Implicant) : StepState :=
  match combine p.1.bits p.2.bits with
  | none => st
  | some c =>
    ⟨insertMerged st.next ⟨c, sortNat (dedupFirst (p.1.covered ++ p.2.covered))⟩,
     addIfNew (addIfNew st.taken p.1.bits) p.2.bits,
     true⟩

/-- Body of the prime-collection loop: skip merged patterns and patterns
already collected, append the rest. -/
def cpStep (tk : List (List Char)) (acc : List Implicant) (imp : Implicant) :
    List Implicant :=
  if imp.bits ∈ tk then acc
  else if acc.any (fun x => x.bits = imp.bits) then acc
  else acc ++ [imp]

/-- After the pair loops: implicants of the current groups that were not
merged join `allPrime` (deduplicated by bit pattern). -/
def collectPrimes (g : List (Nat × List Implicant)) (tk : List (List Char))
    (acc : List Implicant) : List Implicant :=
  (allImps g).foldl (cpStep tk) acc

/-- The state after the pair loops of one round. -/
def roundState (g : List (Nat × List Implicant)) : StepState :=
  (pairsOf g).foldl procPair ⟨[], [], false⟩

/-- One iteration of the `while (true)` loop of `minimizeKMapJS`. -/
def stepRound (g : List (Nat × List Implicant)) (acc : List Implicant) :
    List (Nat × List Implicant) × List Implicant × Bool :=
  ((roundState g).next, collectPrimes g (roundState g).taken acc, (roundState g).anyC)

/-- The `while (true)` loop, with fuel.  `qmLoop_stable` below shows the
result is fuel-independent once the fuel exceeds the maximal number of
concrete characters of any pattern, so this equals the source's loop. -/
def qmLoop : Nat → List (Nat × List Implicant) → List Implicant → List Implicant
  | 0, _, acc => acc
  | fuel + 1, g, acc =>
    let r := stepRound g acc
    if r.2.2 = true then qmLoop fuel r.1 r.2.1 else r.2.1

/-- Number of merging rounds the loop executes (rounds whose
`anyCombined` flag is set). -/
def qmRounds : Nat → List (Nat × List Implicant) → List Implicant → Nat
  | 0, _, _ => 0
  | fuel + 1, g, acc =>
    let r := stepRound g acc
    if r.2.2 = true then qmRounds fuel r.1 r.2.1 + 1 else 0

/-- Number of concrete (non-dash) characters of a pattern. -/
def concCount (p : List Char) : Nat := p.countP (fun c => c ≠ '-')

/-- Fuel for `qmLoop`: one more than the largest concrete-character count
in the groups (an upper bound on the number of merging rounds). -/
def groupFuel (g : List (Nat × List Implicant)) : Nat :=
  ((allImps g).map (fun imp => concCount imp.bits)).foldl Nat.max 0 + 1

/-- Effective variable list of `minimizeKMapJS` (a supplied list shorter
than `numInputs` — including `[]`, which is truthy in JS — falls back to
the default list sliced to the width). -/
def varsOf (opts : SolveOptions) : List String :=
  match opts.vars with
  | some vs => if opts.numInputs ≤ vs.length then vs else DEFAULT_VARS.take opts.numInputs
  | none => DEFAULT_VARS.take opts.numInputs

/-- Deduplicated ascending-sorted minterms. -/
def mtsOf (opts : SolveOptions) : List Nat := sortNat (dedupFirst opts.minterms)

/-- Deduplicated ascending-sorted don't-cares (`opts.dontCares ?? []`). -/
def dcsOf (opts : SolveOptions) : List Nat := sortNat (dedupFirst (opts.dontCares.getD []))

/-- The working universe: minterms ∪ don't-cares. -/
def universeOf (opts : SolveOptions) : List Nat :=
  sortNat (dedupFirst (mtsOf opts ++ dcsOf opts))

def initGroupsOf (opts : SolveOptions) : List (Nat × List Implicant) :=
  initGroups (universeOf opts) opts.numInputs

/-- `allPrime` after the combining loop. -/
def allPrimeOf (opts : SolveOptions) : List Implicant :=
  qmLoop (groupFuel (initGroupsOf opts)) (initGroupsOf opts) []

/-- Step 3: unique prime implicants, re-scored against required minterms. -/
def primesOf (opts : SolveOptions) : List Implicant :=
  (uniqueByBits (allPrimeOf opts)).map
    (fun imp => ⟨imp.bits, expandCoverage imp.bits (mtsOf opts) opts.numInputs⟩)

/-- `primes[i]` (the JS indexing; indices used by the pipeline are always
in range). -/
def primeAt (opts : SolveOptions) (i : Nat) : Implicant :=
  (primesOf opts).getD i default

/-- Inner loop of the `mToImps` construction: record index `i` for one
covered minterm. -/
def mtiInner (i : Nat) (mp : List (Nat × List Nat)) (m : Nat) : List (Nat × List Nat) :=
  nmapSet mp m (nmapGetD mp m [] ++ [i])

/-- Outer loop of the `mToImps` construction: record index `i` for all of
its covered minterms. -/
def mtiOuter (opts : SolveOptions) (mp : List (Nat × List Nat)) (i : Nat) :
    List (Nat × List Nat) :=
  ((primeAt opts i).covered).foldl (mtiInner i) mp

/-- The `mToImps` map: minterm → indices of covering prime implicants. -/
def mToImpsOf (opts : SolveOptions) : List (Nat × List Nat) :=
  (List.range (primesOf opts).length).foldl (mtiOuter opts) []

/-- `mToImps.get(m) ?? []`. -/
def lookupOf (opts : SolveOptions) (m : Nat) : List Nat :=
  nmapGetD (mToImpsOf opts) m []

/-- One step of the essential scan: a minterm covered by exactly one prime
implicant makes that implicant essential. -/
def essStep (opts : SolveOptions) (acc : List Nat) (m : Nat) : List Nat :=
  match lookupOf opts m with
  | [i] => addIfNew acc i
  | _ => acc

/-- Indices of essential prime implicants, in JS `Set` insertion order. -/
def essentialIdxOf (opts : SolveOptions) : List Nat :=
  (mtsOf opts).foldl (essStep opts) []

/-- `coveredMinterms`: minterms covered by the essential implicants. -/
def essCoveredOf (opts : SolveOptions) : List Nat :=
  (essentialIdxOf opts).foldl (fun acc ei =>
    ((primeAt opts ei).covered).foldl addIfNew acc) []

/-- Minterms not covered by any essential implicant. -/
def remainingOf (opts : SolveOptions) : List Nat :=
  (mtsOf opts).filter (fun m => decide (m ∉ essCoveredOf opts))

def coverSetsOf (opts : SolveOptions) : List (List Nat) :=
  (remainingOf opts).map (fun m => lookupOf opts m)

/-- The `chosen` index set: essentials plus Petrick's pick (Petrick runs
only when some minterm remains). -/
def chosenOf (opts : SolveOptions) : List Nat :=
  if remainingOf opts = [] then essentialIdxOf opts
  else (petricksMethod (coverSetsOf opts)).foldl addIfNew (essentialIdxOf opts)

def selectedOf (opts : SolveOptions) : List Implicant :=
  (sortNat (chosenOf opts)).map (fun i => primeAt opts i)

def essentialPIsOf (opts : SolveOptions) : List Implicant :=
  (sortNat (essentialIdxOf opts)).map (fun i => primeAt opts i)

def exprTermsOf (opts : SolveOptions) : List String :=
  (selectedOf opts).map (fun imp => formatImplicant imp.bits (varsOf opts))

/-- `exprTerms.join(' + ') || '0'` (the join is falsy exactly when it is
the empty string). -/
def expressionOf (opts : SolveOptions) : String :=
  let s := String.intercalate " + " (exprTermsOf opts)
  if s = "" then "0" else s

def latexTermsOf (opts : SolveOptions) : List String :=
  (selectedOf opts).map (fun imp => formatImplicantLatex imp.bits (varsOf opts))

def latexOf (opts : SolveOptions) : String :=
  "$F = " ++ String.intercalate " + " (latexTermsOf opts) ++ "$"

/-- The result object built by `minimizeKMapJS` after validation. -/
def solveCore (opts : SolveOptions) : SolveResult :=
  ⟨opts.numInputs, primesOf opts, essentialPIsOf opts, selectedOf opts,
   expressionOf opts, latexOf opts⟩

/-- `minimizeKMapJS` of kmap.ts; the `throw` is an `Except.error`. -/
def minimizeKMapJS (opts : SolveOptions) : Except String SolveResult :=
  if opts.numInputs < 2 ∨ 6 < opts.numInputs then
    Except.error "numInputs must be between 2 and 6."
  else Except.ok (solveCore opts)

/-! ### Basic facts about the pipeline -/

theorem minimizeKMapJS_ok {opts : SolveOptions} {r : SolveResult}
    (h : minimizeKMapJS opts = Except.ok r) : r = solveCore opts := by
  unfold minimizeKMapJS at h
  split at h
  · cases h
  · injection h with h
    exact h.symm

theorem minimizeKMapJS_ok_of_range {opts : SolveOptions}
    (h2 : 2 ≤ opts.numInputs) (h6 : opts.numInputs ≤ 6) :
    minimizeKMapJS opts = Except.ok (solveCore opts) := by
  unfold minimizeKMapJS
  rw [if_neg]
  omega

theorem litTokens_of_all_dash {bits : List Char} (vars : List String)
    (h : ∀ c ∈ bits, c = '-') : litTokens bits vars = [] := by
  unfold litTokens
  rw [List.filterMap_eq_nil_iff]
  intro i hi
  rw [List.mem_range] at hi
  rw [List.getElem?_eq_getElem hi]
  have : bits[i] = '-' := h _ (List.getElem_mem hi)
  simp [this]

theorem latexTokens_of_all_dash {bits : List Char} (vars : List String)
    (h : ∀ c ∈ bits, c = '-') : latexTokens bits vars = [] := by
  unfold latexTokens
  rw [List.filterMap_eq_nil_iff]
  intro i hi
  rw [List.mem_range] at hi
  rw [List.getElem?_eq_getElem hi]
  have : bits[i] = '-' := h _ (List.getElem_mem hi)
  simp [this]

/-! ### Claim theorems: validation and rendering -/

/-- C8: `minimizeKMapJS` fails the whole invocation with the descriptive
error for `numInputs` outside [2,6] and returns no result object; inside
[2,6] the configuration error is not raised and a complete result is
returned. -/
theorem numInputs_validation (opts : SolveOptions) :
    ((opts.numInputs < 2 ∨ 6 < opts.numInputs) →
      minimizeKMapJS opts = Except.error "numInputs must be between 2 and 6.") ∧
    (2 ≤ opts.numInputs → opts.numInputs ≤ 6 →
      minimizeKMapJS opts = Except.ok (solveCore opts)) := by
  refine ⟨fun h => ?_, fun h2 h6 => minimizeKMapJS_ok_of_range h2 h6⟩
  unfold minimizeKMapJS
  rw [if_pos h]

theorem numInputs_validation_witness :
    ((1 : Nat) < 2 ∨ 6 < (1 : Nat)) ∧
    minimizeKMapJS ⟨1, [0], none, none⟩ =
      Except.error "numInputs must be between 2 and 6." ∧
    minimizeKMapJS ⟨2, [0, 3], none, none⟩ =
      Except.ok (solveCore ⟨2, [0, 3], none, none⟩) :=
  ⟨by decide, (numInputs_validation ⟨1, [0], none, none⟩).1 (by decide),
   (numInputs_validation ⟨2, [0, 3], none, none⟩).2 (by decide) (by decide)⟩

theorem rendering_of_empty {opts : SolveOptions} (hsel : selectedOf opts = []) :
    expressionOf opts = "0" ∧ latexOf opts = "$F = $" := by
  constructor
  · unfold expressionOf exprTermsOf
    rw [hsel]
    rfl
  · unfold latexOf latexTermsOf
    rw [hsel]
    rfl

/-- C10: on an accepted input whose selected implicant set is empty, the
expression is the string "0" but the latex is exactly "$F = $", with no
term corresponding to the "0". -/
theorem emptySelection_latex (opts : SolveOptions) (r : SolveResult)
    (hok : minimizeKMapJS opts = Except.ok r)
    (hsel : r.selectedImplicants = []) :
    r.expression = "0" ∧ r.latex = "$F = $" := by
  have hr := minimizeKMapJS_ok hok
  subst hr
  exact rendering_of_empty hsel

theorem emptySelection_latex_witness :
    minimizeKMapJS ⟨2, [], some [], none⟩ = Except.ok (solveCore ⟨2, [], some [], none⟩) ∧
    (solveCore ⟨2, [], some [], none⟩).selectedImplicants = [] ∧
    (solveCore ⟨2, [], some [], none⟩).expression = "0" ∧
    (solveCore ⟨2, [], some [], none⟩).latex = "$F = $" :=
  ⟨rfl, by decide,
   emptySelection_latex ⟨2, [], some [], none⟩ (solveCore ⟨2, [], some [], none⟩) rfl (by decide)⟩

/-- C9: `expression` and `latex` are the " + "-joins of two term lists of
equal length, term-for-term aligned with `selectedImplicants` (the k-th
term of each renders the k-th selected implicant); an implicant with no
concrete bits renders as the constant "1" in both, and an empty selection
renders the expression as "0". -/
theorem rendering_consistency (opts : SolveOptions) (r : SolveResult)
    (hok : minimizeKMapJS opts = Except.ok r) :
    r.expression =
      (if String.intercalate " + "
          (r.selectedImplicants.map (fun imp => formatImplicant imp.bits (varsOf opts))) = ""
        then "0"
        else String.intercalate " + "
          (r.selectedImplicants.map (fun imp => formatImplicant imp.bits (varsOf opts)))) ∧
    r.latex = "$F = " ++ String.intercalate " + "
        (r.selectedImplicants.map (fun imp => formatImplicantLatex imp.bits (varsOf opts))) ++ "$" ∧
    (∀ bits, (∀ c ∈ bits, c = '-') →
      formatImplicant bits (varsOf opts) = "1" ∧
      formatImplicantLatex bits (varsOf opts) = "1") ∧
    (r.selectedImplicants = [] → r.expression = "0") := by
  have hr := minimizeKMapJS_ok hok
  subst hr
  refine ⟨rfl, rfl, fun bits hb => ?_, fun hsel => (rendering_of_empty hsel).1⟩
  constructor
  · unfold formatImplicant
    rw [litTokens_of_all_dash _ hb]
    rfl
  · unfold formatImplicantLatex
    rw [latexTokens_of_all_dash _ hb]
    rfl

theorem rendering_consistency_witness :
    minimizeKMapJS ⟨2, [0, 3], none, none⟩ = Except.ok (solveCore ⟨2, [0, 3], none, none⟩) ∧
    (solveCore ⟨2, [0, 3], none, none⟩).latex = "$F = " ++ String.intercalate " + "
      ((solveCore ⟨2, [0, 3], none, none⟩).selectedImplicants.map
        (fun imp => formatImplicantLatex imp.bits (varsOf ⟨2, [0, 3], none, none⟩))) ++ "$" :=
  ⟨rfl, (rendering_consistency ⟨2, [0, 3], none, none⟩ (solveCore ⟨2, [0, 3], none, none⟩) rfl).2.1⟩

/-! ### Characterization of `combine` on equal-length patterns -/

theorem combineGo_one_iff :
    ∀ (a b out : List Char), a.length = b.length →
      (combineGo a b 1 = some out ↔ a = b ∧ out = a)
  | [], [], out, _ => by
    simp [combineGo, eq_comm]
  | [], _ :: _, _, hlen => by simp at hlen
  | _ :: _, [], _, hlen => by simp at hlen
  | ca :: as, cb :: bs, out, hlen => by
    have hlen' : as.length = bs.length := by simpa using hlen
    unfold combineGo
    by_cases hc : ca = cb
    · subst hc
      rw [if_pos rfl, Option.map_eq_some']
      constructor
      · rintro ⟨t, ht, rfl⟩
        obtain ⟨hab, rfl⟩ := (combineGo_one_iff as bs t hlen').mp ht
        exact ⟨by rw [hab], rfl⟩
      · rintro ⟨hab, rfl⟩
        have hab' : as = bs := by injection hab
        exact ⟨as, (combineGo_one_iff as bs as hlen').mpr ⟨hab', rfl⟩, rfl⟩
    · rw [if_neg hc]
      constructor
      · intro h
        split at h
        · rw [if_pos (by omega)] at h
          exact absurd h (by simp)
        · exact absurd h (by simp)
      · rintro ⟨hab, rfl⟩
        exact absurd (by injection hab) hc

theorem combineGo_zero_iff :
    ∀ (a b out : List Char), a.length = b.length →
      (combineGo a b 0 = some out ↔
        ∃ i, i < a.length ∧ a[i]? ≠ b[i]? ∧ a[i]? ≠ some '-' ∧ b[i]? ≠ some '-' ∧
          (∀ j, j < a.length → j ≠ i → a[j]? = b[j]?) ∧ out = a.set i '-')
  | [], [], out, _ => by
    simp [combineGo]
  | [], _ :: _, _, hlen => by simp at hlen
  | _ :: _, [], _, hlen => by simp at hlen
  | ca :: as, cb :: bs, out, hlen => by
    have hlen' : as.length = bs.length := by simpa using hlen
    unfold combineGo
    by_cases hc : ca = cb
    · subst hc
      rw [if_pos rfl, Option.map_eq_some']
      constructor
      · rintro ⟨t, ht, rfl⟩
        obtain ⟨i, hi, hne, ha, hb, hall, rfl⟩ := (combineGo_zero_iff as bs t hlen').mp ht
        refine ⟨i + 1, by simpa using hi, by simpa using hne, by simpa using ha,
          by simpa using hb, ?_, by simp [List.set_cons_succ]⟩
        intro j hj hji
        cases j with
        | zero => simp
        | succ j' =>
          have : j' < as.length := by simpa using hj
          simpa using hall j' this (by omega)
      · rintro ⟨i, hi, hne, ha, hb, hall, rfl⟩
        cases i with
        | zero => simp at hne
        | succ i' =>
          have hi' : i' < as.length := by simpa using hi
          refine ⟨as.set i' '-', ?_, by simp [List.set_cons_succ]⟩
          refine (combineGo_zero_iff as bs _ hlen').mpr
            ⟨i', hi', by simpa using hne, by simpa using ha, by simpa using hb, ?_, rfl⟩
          intro j hj hji
          simpa using hall (j + 1) (by simpa using hj) (by omega)
    · rw [if_neg hc]
      by_cases hcc : ca ≠ '-' ∧ cb ≠ '-'
      · rw [if_pos hcc, if_neg (by omega), Option.map_eq_some']
        constructor
        · rintro ⟨t, ht, rfl⟩
          obtain ⟨hab, rfl⟩ := (combineGo_one_iff as bs t hlen').mp ht
          subst hab
          refine ⟨0, by simp, by simpa using hc, by simpa using hcc.1,
            by simpa using hcc.2, ?_, by simp⟩
          intro j hj hj0
          cases j with
          | zero => omega
          | succ j' => simp
        · rintro ⟨i, hi, hne, ha, hb, hall, rfl⟩
          cases i with
          | zero =>
            have hab : as = bs := by
              apply List.ext_getElem?
              intro n
              by_cases hn : n < as.length
              · simpa using hall (n + 1) (by simpa using hn) (by omega)
              · rw [List.getElem?_eq_none (by omega), List.getElem?_eq_none (by omega)]
            exact ⟨as, (combineGo_one_iff as bs as hlen').mpr ⟨hab, rfl⟩, by simp⟩
          | succ i' =>
            have := hall 0 (by simp) (by omega)
            simp at this
            exact absurd this hc
      · rw [if_neg hcc]
        constructor
        · intro h
          exact absurd h (by simp)
        · rintro ⟨i, hi, hne, ha, hb, hall, rfl⟩
          cases i with
          | zero =>
            simp only [List.getElem?_cons_zero, ne_eq, Option.some.injEq] at ha hb
            exact absurd ⟨ha, hb⟩ hcc
          | succ i' =>
            have := hall 0 (by simp) (by omega)
            simp at this
            exact absurd this hc

/-- C6: on equal-length patterns over {0,1,-}, `combine` succeeds exactly
when the patterns differ in a single position at which both characters are
concrete (all other positions, dashes included, matching exactly), and the
merged pattern is the first pattern with that position replaced by '-'. -/
theorem combine_spec (a b : List Char) (hlen : a.length = b.length)
    (ha : ∀ c ∈ a, c = '0' ∨ c = '1' ∨ c = '-')
    (hb : ∀ c ∈ b, c = '0' ∨ c = '1' ∨ c = '-') (out : List Char) :
    combine a b = some out ↔
      ∃ i, i < a.length ∧ a[i]? ≠ b[i]? ∧ a[i]? ≠ some '-' ∧ b[i]? ≠ some '-' ∧
        (∀ j, j < a.length → j ≠ i → a[j]? = b[j]?) ∧ out = a.set i '-' :=
  combineGo_zero_iff a b out hlen

theorem combine_spec_witness :
    (['1', '0'] : List Char).length = (['1', '1'] : List Char).length ∧
    combine ['1', '0'] ['1', '1'] = some ['1', '-'] :=
  ⟨rfl, (combine_spec ['1', '0'] ['1', '1'] rfl (by decide) (by decide) ['1', '-']).mpr
    ⟨1, by decide, by decide, by decide, by decide, by decide, by decide⟩⟩

/-! ### Helper lemmas: dedup, sort, sets, maps -/

theorem mem_addIfNew {α : Type} [DecidableEq α] {l : List α} {x y : α} :
    y ∈ addIfNew l x ↔ y ∈ l ∨ y = x := by
  unfold addIfNew
  split
  · rename_i hx
    constructor
    · exact fun h => Or.inl h
    · rintro (h | rfl)
      · exact h
      · exact hx
  · simp

theorem addIfNew_ne_nil {α : Type} [DecidableEq α] (l : List α) (x : α) :
    addIfNew l x ≠ [] := by
  unfold addIfNew
  split
  · rename_i hx
    intro h
    rw [h] at hx
    cases hx
  · simp

theorem nodup_addIfNew {α : Type} [DecidableEq α] {l : List α} (x : α)
    (h : l.Nodup) : (addIfNew l x).Nodup := by
  unfold addIfNew
  split
  · exact h
  · rename_i hx
    refine List.Nodup.append h (List.nodup_singleton x) ?_
    intro a ha hax
    rw [List.mem_singleton] at hax
    subst hax
    exact hx ha

theorem mem_dedupFirstAux : ∀ {l seen : List Nat} {x : Nat},
    x ∈ dedupFirstAux l seen ↔ x ∈ l ∧ x ∉ seen := by
  intro l
  induction l with
  | nil => intro seen x; simp [dedupFirstAux]
  | cons y rest ih =>
    intro seen x
    unfold dedupFirstAux
    split
    · rename_i hy
      rw [ih]
      simp only [List.mem_cons]
      constructor
      · rintro ⟨h1, h2⟩
        exact ⟨Or.inr h1, h2⟩
      · rintro ⟨rfl | h1, h2⟩
        · exact absurd hy h2
        · exact ⟨h1, h2⟩
    · rename_i hy
      simp only [List.mem_cons, ih]
      constructor
      · rintro (rfl | ⟨h1, h2⟩)
        · exact ⟨Or.inl rfl, hy⟩
        · exact ⟨Or.inr h1, fun hs => h2 (Or.inr hs)⟩
      · rintro ⟨rfl | h1, h2⟩
        · exact Or.inl rfl
        · by_cases hxy : x = y
          · exact Or.inl hxy
          · exact Or.inr ⟨h1, fun hs => hs.elim hxy h2⟩

theorem mem_dedupFirst {l : List Nat} {x : Nat} : x ∈ dedupFirst l ↔ x ∈ l := by
  unfold dedupFirst
  rw [mem_dedupFirstAux]
  simp

theorem nodup_dedupFirstAux : ∀ (l seen : List Nat), (dedupFirstAux l seen).Nodup := by
  intro l
  induction l with
  | nil => intro seen; simp [dedupFirstAux]
  | cons y rest ih =>
    intro seen
    unfold dedupFirstAux
    split
    · exact ih seen
    · refine List.nodup_cons.mpr ⟨fun hy => ?_, ih (y :: seen)⟩
      exact (mem_dedupFirstAux.mp hy).2 (by simp)

theorem nodup_dedupFirst (l : List Nat) : (dedupFirst l).Nodup :=
  nodup_dedupFirstAux l []

theorem mem_sortNat {l : List Nat} {x : Nat} : x ∈ sortNat l ↔ x ∈ l :=
  (List.perm_insertionSort (· ≤ ·) l).mem_iff

theorem nodup_sortNat {l : List Nat} (h : l.Nodup) : (sortNat l).Nodup :=
  (List.perm_insertionSort (· ≤ ·) l).symm.nodup h

theorem mem_sortByLen {l : List (List Nat)} {x : List Nat} : x ∈ sortByLen l ↔ x ∈ l :=
  (List.perm_insertionSort lenLe l).mem_iff

theorem sortByLen_ne_nil {l : List (List Nat)} (h : l ≠ []) : sortByLen l ≠ [] := by
  intro hnil
  have hp := List.perm_insertionSort lenLe l
  rw [show sortByLen l = List.insertionSort lenLe l from rfl] at hnil
  rw [hnil] at hp
  exact h hp.symm.eq_nil

theorem sortByLen_head_min {l : List (List Nat)} (hne : sortByLen l ≠ []) :
    (sortByLen l).headD [] ∈ l ∧
      ∀ s ∈ l, ((sortByLen l).headD []).length ≤ s.length := by
  have hsorted : List.Sorted lenLe (sortByLen l) := List.sorted_insertionSort lenLe l
  obtain ⟨h, t, hht⟩ := List.exists_cons_of_ne_nil hne
  rw [hht]
  rw [hht, List.sorted_cons] at hsorted
  constructor
  · exact mem_sortByLen.mp (by rw [hht]; simp)
  · intro s hs
    have hs' : s ∈ sortByLen l := mem_sortByLen.mpr hs
    rw [hht] at hs'
    rcases List.mem_cons.mp hs' with rfl | hs'
    · simp
    · exact hsorted.1 s hs'

/-- Generic membership through a `foldl` whose step adds exactly the
elements satisfying `P`. -/
theorem foldl_mem_iff {γ : Type} (f : List Nat → γ → List Nat) (P : γ → Nat → Prop)
    (hf : ∀ acc y x, x ∈ f acc y ↔ x ∈ acc ∨ P y x) :
    ∀ (l : List γ) (acc : List Nat) (x : Nat),
      x ∈ l.foldl f acc ↔ x ∈ acc ∨ ∃ y ∈ l, P y x := by
  intro l
  induction l with
  | nil => simp
  | cons y rest ih =>
    intro acc x
    rw [List.foldl_cons, ih, hf]
    constructor
    · rintro ((h | h) | ⟨z, hz, hP⟩)
      · exact Or.inl h
      · exact Or.inr ⟨y, by simp, h⟩
      · exact Or.inr ⟨z, by simp [hz], hP⟩
    · rintro (h | ⟨z, hz, hP⟩)
      · exact Or.inl (Or.inl h)
      · rcases List.mem_cons.mp hz with rfl | hz
        · exact Or.inl (Or.inr hP)
        · exact Or.inr ⟨z, hz, hP⟩

theorem foldl_max_le_init : ∀ (l : List Nat) (a : Nat), a ≤ l.foldl Nat.max a := by
  intro l
  induction l with
  | nil => simp
  | cons y rest ih =>
    intro a
    rw [List.foldl_cons]
    exact le_trans (Nat.le_max_left a y) (ih (Nat.max a y))

theorem le_foldl_max : ∀ (l : List Nat) (a x : Nat), x ∈ l → x ≤ l.foldl Nat.max a := by
  intro l
  induction l with
  | nil => simp
  | cons y rest ih =>
    intro a x hx
    rcases List.mem_cons.mp hx with rfl | hx
    · exact le_trans (Nat.le_max_right a x) (foldl_max_le_init rest (Nat.max a x))
    · exact ih (Nat.max a y) x hx

/-! ### Quantitative facts about `combine` -/

theorem combineGo_length : ∀ {a b : List Char} {d : Nat} {out : List Char},
    combineGo a b d = some out → out.length = a.length := by
  intro a
  induction a with
  | nil =>
    intro b d out h
    unfold combineGo at h
    split at h
    · injection h with h
      rw [← h]
    · cases h
  | cons ca as ih =>
    intro b d out h
    cases b with
    | nil =>
      unfold combineGo at h
      split at h
      · split at h
        · cases h
        · rw [Option.map_eq_some'] at h
          obtain ⟨t, ht, rfl⟩ := h
          simp [ih ht]
      · cases h
    | cons cb bs =>
      unfold combineGo at h
      split at h
      · rw [Option.map_eq_some'] at h
        obtain ⟨t, ht, rfl⟩ := h
        simp [ih ht]
      · split at h
        · split at h
          · cases h
          · rw [Option.map_eq_some'] at h
            obtain ⟨t, ht, rfl⟩ := h
            simp [ih ht]
        · cases h

theorem combineGo_sound : ∀ {a b : List Char} {d : Nat} {out : List Char},
    combineGo a b d = some out →
      ∀ (i : Nat) (c : Char), out[i]? = some c → c ≠ '-' → a[i]? = some c ∧ b[i]? = some c := by
  intro a
  induction a with
  | nil =>
    intro b d out h i c hc _
    unfold combineGo at h
    split at h
    · injection h with h
      rw [← h] at hc
      cases hc
    · cases h
  | cons ca as ih =>
    intro b d out h i c hc hcd
    cases b with
    | nil =>
      unfold combineGo at h
      split at h
      · split at h
        · cases h
        · rw [Option.map_eq_some'] at h
          obtain ⟨t, ht, rfl⟩ := h
          cases i with
          | zero =>
            simp at hc
            exact absurd hc.symm hcd
          | succ i' =>
            simp only [List.getElem?_cons_succ] at hc ⊢
            exact ih ht i' c hc hcd
      · cases h
    | cons cb bs =>
      unfold combineGo at h
      split at h
      · rename_i hab
        rw [Option.map_eq_some'] at h
        obtain ⟨t, ht, rfl⟩ := h
        cases i with
        | zero =>
          simp at hc
          subst hc
          rw [hab]
          simp
        | succ i' =>
          simp only [List.getElem?_cons_succ] at hc ⊢
          exact ih ht i' c hc hcd
      · split at h
        · split at h
          · cases h
          · rw [Option.map_eq_some'] at h
            obtain ⟨t, ht, rfl⟩ := h
            cases i with
            | zero =>
              simp at hc
              exact absurd hc.symm hcd
            | succ i' =>
              simp only [List.getElem?_cons_succ] at hc ⊢
              exact ih ht i' c hc hcd
        · cases h

theorem combineGo_chars : ∀ {a b : List Char} {d : Nat} {out : List Char},
    combineGo a b d = some out → ∀ c ∈ out, c = '-' ∨ c ∈ a := by
  intro a
  induction a with
  | nil =>
    intro b d out h c hc
    unfold combineGo at h
    split at h
    · injection h with h
      rw [← h] at hc
      cases hc
    · cases h
  | cons ca as ih =>
    intro b d out h c hc
    cases b with
    | nil =>
      unfold combineGo at h
      split at h
      · split at h
        · cases h
        · rw [Option.map_eq_some'] at h
          obtain ⟨t, ht, rfl⟩ := h
          rcases List.mem_cons.mp hc with rfl | hc
          · exact Or.inl rfl
          · rcases ih ht c hc with h' | h'
            · exact Or.inl h'
            · exact Or.inr (List.mem_cons.mpr (Or.inr h'))
      · cases h
    | cons cb bs =>
      unfold combineGo at h
      split at h
      · rw [Option.map_eq_some'] at h
        obtain ⟨t, ht, rfl⟩ := h
        rcases List.mem_cons.mp hc with rfl | hc
        · exact Or.inr (List.mem_cons.mpr (Or.inl rfl))
        · rcases ih ht c hc with h' | h'
          · exact Or.inl h'
          · exact Or.inr (List.mem_cons.mpr (Or.inr h'))
      · split at h
        · split at h
          · cases h
          · rw [Option.map_eq_some'] at h
            obtain ⟨t, ht, rfl⟩ := h
            rcases List.mem_cons.mp hc with rfl | hc
            · exact Or.inl rfl
            · rcases ih ht c hc with h' | h'
              · exact Or.inl h'
              · exact Or.inr (List.mem_cons.mpr (Or.inr h'))
        · cases h

theorem concCount_cons (c : Char) (l : List Char) :
    concCount (c :: l) = concCount l + (if c = '-' then 0 else 1) := by
  unfold concCount
  rw [List.countP_cons]
  by_cases h : c = '-' <;> simp [h]

theorem concCount_add_dash (l : List Char) :
    concCount l + l.countP (fun ch => ch = '-') = l.length := by
  induction l with
  | nil => rfl
  | cons c rest ih =>
    rw [concCount_cons, List.countP_cons, List.length_cons]
    by_cases hch : c = '-' <;> simp [hch] <;> omega

theorem combineGo_conc : ∀ {a b : List Char} {d : Nat} {out : List Char},
    combineGo a b d = some out → concCount a + d = concCount out + 1 := by
  intro a
  induction a with
  | nil =>
    intro b d out h
    unfold combineGo at h
    split at h
    · rename_i hd
      injection h with h
      rw [← h, hd]
    · cases h
  | cons ca as ih =>
    intro b d out h
    cases b with
    | nil =>
      unfold combineGo at h
      split at h
      · rename_i hca
        split at h
        · cases h
        · rw [Option.map_eq_some'] at h
          obtain ⟨t, ht, rfl⟩ := h
          have hrec := ih ht
          rw [concCount_cons, concCount_cons, if_neg hca, if_pos rfl]
          omega
      · cases h
    | cons cb bs =>
      unfold combineGo at h
      split at h
      · rw [Option.map_eq_some'] at h
        obtain ⟨t, ht, rfl⟩ := h
        have hrec := ih ht
        rw [concCount_cons, concCount_cons]
        by_cases hca : ca = '-'
        · rw [if_pos hca]
          omega
        · rw [if_neg hca]
          omega
      · split at h
        · rename_i hcc
          split at h
          · cases h
          · rw [Option.map_eq_some'] at h
            obtain ⟨t, ht, rfl⟩ := h
            have hrec := ih ht
            rw [concCount_cons, concCount_cons, if_neg hcc.1, if_pos rfl]
            omega
        · cases h

/-! ### `toBinary` and `coveredBy` facts -/

theorem binDigitsAux_length_le : ∀ (fuel : Nat) {n w : Nat}, n ≤ fuel → n < 2 ^ w →
    (binDigitsAux fuel n).length ≤ w := by
  intro fuel
  induction fuel with
  | zero =>
    intro n w _ _
    simp [binDigitsAux]
  | succ fuel ih =>
    intro n w hf hw
    unfold binDigitsAux
    split
    · simp
    · rename_i hn
      rw [List.length_append, List.length_singleton]
      have hw1 : 1 ≤ w := by
        by_contra hw1
        have : w = 0 := by omega
        subst this
        simp at hw
        omega
      have h1 : n / 2 ≤ fuel := by omega
      have h2 : n / 2 < 2 ^ (w - 1) := by
        have : 2 ^ w = 2 ^ (w - 1) * 2 := by
          rw [← pow_succ]
          congr 1
          omega
        rw [this] at hw
        exact Nat.div_lt_of_lt_mul (by omega)
      have := ih h1 h2
      omega

theorem toBinary_length_ge (n w : Nat) : w ≤ (toBinary n w).length := by
  unfold toBinary
  rw [List.length_append, List.length_replicate]
  omega

theorem toBinary_length_eq {n w : Nat} (h : n < 2 ^ w) (hw : 1 ≤ w) :
    (toBinary n w).length = w := by
  unfold toBinary
  rw [List.length_append, List.length_replicate]
  split
  · simp
    omega
  · rename_i hn
    have : (binDigits n).length ≤ w := binDigitsAux_length_le n (le_refl n) h
    omega

theorem coveredBy_iff {bits : List Char} {m w : Nat} :
    coveredBy bits m w = true ↔
      ∀ i, i < w → ∃ c, bits[i]? = some c ∧ (c = '-' ∨ (toBinary m w)[i]? = some c) := by
  unfold coveredBy
  rw [List.all_eq_true]
  constructor
  · intro h i hi
    have h' := h i (List.mem_range.mpr hi)
    revert h'
    cases hb : bits[i]? with
    | none => simp
    | some ch =>
      intro h'
      refine ⟨ch, rfl, ?_⟩
      by_cases hch : ch = '-'
      · exact Or.inl hch
      · dsimp only at h'
        rw [if_neg hch] at h'
        exact Or.inr (of_decide_eq_true h')
  · intro h i hi
    obtain ⟨c, hc, hor⟩ := h i (List.mem_range.mp hi)
    rw [hc]
    dsimp only
    rcases hor with rfl | hor
    · simp
    · by_cases hch : c = '-'
      · simp [hch]
      · rw [if_neg hch]
        exact decide_eq_true hor

theorem coveredBy_self (m w : Nat) : coveredBy (toBinary m w) m w = true := by
  rw [coveredBy_iff]
  intro i hi
  have hi' : i < (toBinary m w).length := lt_of_lt_of_le hi (toBinary_length_ge m w)
  exact ⟨(toBinary m w)[i], List.getElem?_eq_getElem hi',
    Or.inr (List.getElem?_eq_getElem hi')⟩

/-- Coverage transfers from either side of a successful merge to the
merged pattern (the left pattern being at least `w` long). -/
theorem coveredBy_combine {a b out : List Char} (h : combine a b = some out)
    {m w : Nat} (hw : w ≤ a.length)
    (hc : coveredBy a m w = true ∨ coveredBy b m w = true) :
    coveredBy out m w = true := by
  rw [coveredBy_iff]
  intro i hi
  have hlen : out.length = a.length := combineGo_length h
  have hiout : i < out.length := by omega
  refine ⟨out[i], List.getElem?_eq_getElem hiout, ?_⟩
  by_cases hdash : out[i] = '-'
  · exact Or.inl hdash
  · have hsound := combineGo_sound h i out[i] (List.getElem?_eq_getElem hiout) hdash
    rcases hc with hc | hc
    · obtain ⟨c, hc1, hc2⟩ := coveredBy_iff.mp hc i hi
      rw [hsound.1] at hc1
      injection hc1 with hc1
      subst hc1
      rcases hc2 with h' | h'
      · exact absurd h' hdash
      · exact Or.inr h'
    · obtain ⟨c, hc1, hc2⟩ := coveredBy_iff.mp hc i hi
      rw [hsound.2] at hc1
      injection hc1 with hc1
      subst hc1
      rcases hc2 with h' | h'
      · exact absurd h' hdash
      · exact Or.inr h'

/-! ### Invariants of one combining round -/

/-- Some implicant of the list covers `m`. -/
def CoversIn (l : List Implicant) (m w : Nat) : Prop :=
  ∃ imp ∈ l, coveredBy imp.bits m w = true

/-- All patterns in the groups have at most `c` concrete characters. -/
def AllConcLe (g : List (Nat × List Implicant)) (c : Nat) : Prop :=
  ∀ imp ∈ allImps g, concCount imp.bits ≤ c

/-- All patterns in the groups are at least `w` long. -/
def AllLenGe (g : List (Nat × List Implicant)) (w : Nat) : Prop :=
  ∀ imp ∈ allImps g, w ≤ imp.bits.length

theorem mem_nmapGetD {β : Type} : ∀ {g : List (Nat × List β)} {k : Nat} {x : β},
    x ∈ nmapGetD g k [] → x ∈ g.flatMap (fun e => e.2) := by
  intro g
  induction g with
  | nil =>
    intro k x h
    simp [nmapGetD] at h
  | cons e rest ih =>
    intro k x h
    unfold nmapGetD at h
    rw [List.flatMap_cons, List.mem_append]
    split at h
    · exact Or.inl h
    · exact Or.inr (ih h)

theorem flatMap_nmapSet_append {β : Type} :
    ∀ (g : List (Nat × List β)) (k : Nat) (x y : β),
      y ∈ (nmapSet g k (nmapGetD g k [] ++ [x])).flatMap (fun e => e.2) ↔
        y ∈ g.flatMap (fun e => e.2) ∨ y = x := by
  intro g
  induction g with
  | nil =>
    intro k x y
    simp [nmapSet, nmapGetD]
  | cons e rest ih =>
    intro k x y
    by_cases hk : e.1 = k
    · rw [show nmapSet (e :: rest) k (nmapGetD (e :: rest) k [] ++ [x]) =
          (k, nmapGetD (e :: rest) k [] ++ [x]) :: rest by
        unfold nmapSet
        rw [if_pos hk]]
      rw [show nmapGetD (e :: rest) k [] = e.2 by
        unfold nmapGetD
        rw [if_pos hk]]
      simp only [List.flatMap_cons, List.mem_append, List.mem_singleton]
      constructor
      · rintro ((h | h) | h)
        · exact Or.inl (Or.inl h)
        · exact Or.inr h
        · exact Or.inl (Or.inr h)
      · rintro ((h | h) | h)
        · exact Or.inl (Or.inl h)
        · exact Or.inr h
        · exact Or.inl (Or.inr h)
    · rw [show nmapSet (e :: rest) k (nmapGetD (e :: rest) k [] ++ [x]) =
          e :: nmapSet rest k (nmapGetD rest k [] ++ [x]) by
        conv_lhs => unfold nmapSet nmapGetD
        rw [if_neg hk, if_neg hk]]
      simp only [List.flatMap_cons, List.mem_append]
      rw [ih]
      constructor
      · rintro (h | h | h)
        · exact Or.inl (Or.inl h)
        · exact Or.inl (Or.inr h)
        · exact Or.inr h
      · rintro ((h | h) | h)
        · exact Or.inl h
        · exact Or.inr (Or.inl h)
        · exact Or.inr (Or.inr h)

theorem insertMerged_eq (g : List (Nat × List Implicant)) (imp : Implicant) :
    insertMerged g imp =
      if ((nmapGetD g (countOnes (imp.bits.filter (fun c => c ≠ '-'))) []).any
          (fun x => x.bits = imp.bits)) = true then g
      else nmapSet g (countOnes (imp.bits.filter (fun c => c ≠ '-')))
        (nmapGetD g (countOnes (imp.bits.filter (fun c => c ≠ '-'))) [] ++ [imp]) := rfl

theorem insertMerged_mem_elim {g : List (Nat × List Implicant)} {imp y : Implicant}
    (h : y ∈ allImps (insertMerged g imp)) : y ∈ allImps g ∨ y = imp := by
  rw [insertMerged_eq] at h
  split at h
  · exact Or.inl h
  · exact (flatMap_nmapSet_append g _ imp y).mp h

theorem insertMerged_mem_mono {g : List (Nat × List Implicant)} {imp y : Implicant}
    (h : y ∈ allImps g) : y ∈ allImps (insertMerged g imp) := by
  rw [insertMerged_eq]
  split
  · exact h
  · exact (flatMap_nmapSet_append g _ imp y).mpr (Or.inl h)

theorem insertMerged_bits (g : List (Nat × List Implicant)) (imp : Implicant) :
    ∃ x ∈ allImps (insertMerged g imp), x.bits = imp.bits := by
  rw [insertMerged_eq]
  split
  · rename_i hfound
    rw [List.any_eq_true] at hfound
    obtain ⟨x, hx, hbits⟩ := hfound
    exact ⟨x, mem_nmapGetD hx, of_decide_eq_true hbits⟩
  · exact ⟨imp, (flatMap_nmapSet_append g _ imp imp).mpr (Or.inr rfl), rfl⟩

theorem pairsOf_mem {g : List (Nat × List Implicant)} {p : Implicant × Implicant}
    (h : p ∈ pairsOf g) : p.1 ∈ allImps g ∧ p.2 ∈ allImps g := by
  unfold pairsOf at h
  rw [List.mem_flatMap] at h
  obtain ⟨gi, _, h⟩ := h
  rw [List.mem_flatMap] at h
  obtain ⟨a, ha, h⟩ := h
  rw [List.mem_map] at h
  obtain ⟨b, hb, rfl⟩ := h
  exact ⟨mem_nmapGetD ha, mem_nmapGetD hb⟩

theorem foldl_procPair_next (P : Implicant → Prop) :
    ∀ (ps : List (Implicant × Implicant)) (st : StepState),
      (∀ imp ∈ allImps st.next, P imp) →
      (∀ p ∈ ps, ∀ c, combine p.1.bits p.2.bits = some c →
        P ⟨c, sortNat (dedupFirst (p.1.covered ++ p.2.covered))⟩) →
      ∀ imp ∈ allImps (ps.foldl procPair st).next, P imp := by
  intro ps
  induction ps with
  | nil =>
    intro st hst _ imp himp
    exact hst imp himp
  | cons p rest ih =>
    intro st hst hps imp himp
    rw [List.foldl_cons] at himp
    refine ih (procPair st p) ?_ (fun q hq => hps q (List.mem_cons.mpr (Or.inr hq))) imp himp
    intro y hy
    unfold procPair at hy
    split at hy
    · exact hst y hy
    · rename_i c hcomb
      rcases insertMerged_mem_elim hy with hy | rfl
      · exact hst y hy
      · exact hps p (List.mem_cons.mpr (Or.inl rfl)) c hcomb

theorem foldl_procPair_bits :
    ∀ (ps : List (Implicant × Implicant)) (st : StepState) (c : List Char),
      (∃ x ∈ allImps st.next, x.bits = c) →
      ∃ x ∈ allImps (ps.foldl procPair st).next, x.bits = c := by
  intro ps
  induction ps with
  | nil => exact fun st c h => h
  | cons p rest ih =>
    intro st c h
    rw [List.foldl_cons]
    refine ih (procPair st p) c ?_
    obtain ⟨x, hx, hbits⟩ := h
    unfold procPair
    split
    · exact ⟨x, hx, hbits⟩
    · exact ⟨x, insertMerged_mem_mono hx, hbits⟩

/-- Every pattern in `taken` belongs to a successfully merged pair whose
merged pattern is present (by bits) in `next`. -/
def TakenInv (g0 : List (Nat × List Implicant)) (st : StepState) : Prop :=
  ∀ pat ∈ st.taken, ∃ a b out, a ∈ allImps g0 ∧ b ∈ allImps g0 ∧
    combine a.bits b.bits = some out ∧ (pat = a.bits ∨ pat = b.bits) ∧
    ∃ x ∈ allImps st.next, x.bits = out

theorem foldl_procPair_taken (g0 : List (Nat × List Implicant)) :
    ∀ (ps : List (Implicant × Implicant)) (st : StepState),
      (∀ p ∈ ps, p.1 ∈ allImps g0 ∧ p.2 ∈ allImps g0) →
      TakenInv g0 st → TakenInv g0 (ps.foldl procPair st) := by
  intro ps
  induction ps with
  | nil => exact fun st _ h => h
  | cons p rest ih =>
    intro st hps hst
    rw [List.foldl_cons]
    refine ih (procPair st p) (fun q hq => hps q (List.mem_cons.mpr (Or.inr hq))) ?_
    cases hcomb : combine p.1.bits p.2.bits with
    | none =>
      have hstep : procPair st p = st := by
        unfold procPair
        rw [hcomb]
      rw [hstep]
      exact hst
    | some c =>
      have hstep : procPair st p =
          ⟨insertMerged st.next ⟨c, sortNat (dedupFirst (p.1.covered ++ p.2.covered))⟩,
           addIfNew (addIfNew st.taken p.1.bits) p.2.bits, true⟩ := by
        unfold procPair
        rw [hcomb]
      rw [hstep]
      intro pat hpat
      dsimp only at hpat ⊢
      rw [mem_addIfNew] at hpat
      rcases hpat with hpat | rfl
      · rw [mem_addIfNew] at hpat
        rcases hpat with hpat | rfl
        · obtain ⟨a, b, out, ha, hb, hc', hor, x, hx, hbits⟩ := hst pat hpat
          exact ⟨a, b, out, ha, hb, hc', hor, x, insertMerged_mem_mono hx, hbits⟩
        · obtain ⟨hp1, hp2⟩ := hps p (List.mem_cons.mpr (Or.inl rfl))
          obtain ⟨x, hx, hbits⟩ := insertMerged_bits st.next
            ⟨c, sortNat (dedupFirst (p.1.covered ++ p.2.covered))⟩
          exact ⟨p.1, p.2, c, hp1, hp2, hcomb, Or.inl rfl, x, hx, hbits⟩
      · obtain ⟨hp1, hp2⟩ := hps p (List.mem_cons.mpr (Or.inl rfl))
        obtain ⟨x, hx, hbits⟩ := insertMerged_bits st.next
          ⟨c, sortNat (dedupFirst (p.1.covered ++ p.2.covered))⟩
        exact ⟨p.1, p.2, c, hp1, hp2, hcomb, Or.inr rfl, x, hx, hbits⟩

theorem foldl_procPair_anyC_mono :
    ∀ (ps : List (Implicant × Implicant)) (st : StepState),
      st.anyC = true → (ps.foldl procPair st).anyC = true := by
  intro ps
  induction ps with
  | nil => exact fun st h => h
  | cons p rest ih =>
    intro st h
    rw [List.foldl_cons]
    refine ih (procPair st p) ?_
    unfold procPair
    split
    · exact h
    · rfl

theorem foldl_procPair_anyC_false :
    ∀ (ps : List (Implicant × Implicant)) (st : StepState),
      (ps.foldl procPair st).anyC = false → ps.foldl procPair st = st := by
  intro ps
  induction ps with
  | nil => exact fun st _ => rfl
  | cons p rest ih =>
    intro st h
    rw [List.foldl_cons] at h ⊢
    cases hcomb : combine p.1.bits p.2.bits with
    | none =>
      have hstep : procPair st p = st := by
        unfold procPair
        rw [hcomb]
      rw [hstep] at h ⊢
      exact ih st h
    | some c =>
      exfalso
      have htrue : (rest.foldl procPair (procPair st p)).anyC = true := by
        apply foldl_procPair_anyC_mono
        unfold procPair
        rw [hcomb]
      rw [htrue] at h
      cases h

theorem foldl_procPair_exists_some :
    ∀ (ps : List (Implicant × Implicant)) (st : StepState),
      (ps.foldl procPair st).anyC = true →
      st.anyC = true ∨ ∃ p ∈ ps, ∃ c, combine p.1.bits p.2.bits = some c := by
  intro ps
  induction ps with
  | nil => exact fun st h => Or.inl h
  | cons p rest ih =>
    intro st h
    rw [List.foldl_cons] at h
    cases hcomb : combine p.1.bits p.2.bits with
    | some c => exact Or.inr ⟨p, List.mem_cons.mpr (Or.inl rfl), c, hcomb⟩
    | none =>
      have hstep : procPair st p = st := by
        unfold procPair
        rw [hcomb]
      rw [hstep] at h
      rcases ih st h with h | ⟨q, hq, hc⟩
      · exact Or.inl h
      · exact Or.inr ⟨q, List.mem_cons.mpr (Or.inr hq), hc⟩

theorem cpFold_mono {tk : List (List Char)} :
    ∀ (l : List Implicant) (acc : List Implicant),
      ∀ imp ∈ acc, imp ∈ l.foldl (cpStep tk) acc := by
  intro l
  induction l with
  | nil => exact fun acc imp h => h
  | cons x rest ih =>
    intro acc imp h
    rw [List.foldl_cons]
    refine ih _ imp ?_
    unfold cpStep
    split
    · exact h
    · split
      · exact h
      · exact List.mem_append.mpr (Or.inl h)

theorem cpFold_orig {tk : List (List Char)} :
    ∀ (l : List Implicant) (acc : List Implicant) (imp : Implicant),
      imp ∈ l.foldl (cpStep tk) acc → imp ∈ acc ∨ imp ∈ l := by
  intro l
  induction l with
  | nil => exact fun acc imp h => Or.inl h
  | cons x rest ih =>
    intro acc imp h
    rw [List.foldl_cons] at h
    rcases ih _ imp h with h' | h'
    · unfold cpStep at h'
      split at h'
      · exact Or.inl h'
      · split at h'
        · exact Or.inl h'
        · rcases List.mem_append.mp h' with h'' | h''
          · exact Or.inl h''
          · rw [List.mem_singleton] at h''
            exact Or.inr (h'' ▸ List.mem_cons.mpr (Or.inl rfl))
    · exact Or.inr (List.mem_cons.mpr (Or.inr h'))

theorem cpFold_bits {tk : List (List Char)} :
    ∀ (l : List Implicant) (acc : List Implicant) (imp : Implicant),
      imp ∈ l → imp.bits ∉ tk →
        ∃ x ∈ l.foldl (cpStep tk) acc, x.bits = imp.bits := by
  intro l
  induction l with
  | nil =>
    intro acc imp h
    cases h
  | cons y rest ih =>
    intro acc imp h htk
    rw [List.foldl_cons]
    rcases List.mem_cons.mp h with rfl | h
    · by_cases hfound : (acc.any (fun x => x.bits = imp.bits)) = true
      · obtain ⟨x, hx, hbits⟩ := List.any_eq_true.mp hfound
        refine ⟨x, ?_, of_decide_eq_true hbits⟩
        refine cpFold_mono rest _ x ?_
        unfold cpStep
        rw [if_neg htk, if_pos hfound]
        exact hx
      · refine ⟨imp, ?_, rfl⟩
        refine cpFold_mono rest _ imp ?_
        unfold cpStep
        rw [if_neg htk, if_neg hfound]
        exact List.mem_append.mpr (Or.inr (List.mem_singleton.mpr rfl))
    · exact ih _ imp h htk

theorem collectPrimes_mono {g : List (Nat × List Implicant)} {tk : List (List Char)}
    {acc : List Implicant} : ∀ imp ∈ acc, imp ∈ collectPrimes g tk acc :=
  cpFold_mono (allImps g) acc

theorem collectPrimes_orig {g : List (Nat × List Implicant)} {tk : List (List Char)}
    {acc : List Implicant} :
    ∀ imp ∈ collectPrimes g tk acc, imp ∈ acc ∨ imp ∈ allImps g :=
  fun imp h => cpFold_orig (allImps g) acc imp h

theorem collectPrimes_bits {g : List (Nat × List Implicant)} {tk : List (List Char)}
    {acc : List Implicant} :
    ∀ imp ∈ allImps g, imp.bits ∉ tk →
      ∃ x ∈ collectPrimes g tk acc, x.bits = imp.bits :=
  fun imp h htk => cpFold_bits (allImps g) acc imp h htk

theorem roundState_taken_inv (g : List (Nat × List Implicant)) :
    TakenInv g (roundState g) := by
  refine foldl_procPair_taken g (pairsOf g) ⟨[], [], false⟩
    (fun p hp => pairsOf_mem hp) ?_
  intro pat hpat
  cases hpat

theorem stepRound_next_orig {g : List (Nat × List Implicant)} {acc : List Implicant} :
    ∀ imp ∈ allImps (stepRound g acc).1, ∃ a b, a ∈ allImps g ∧ b ∈ allImps g ∧
      combine a.bits b.bits = some imp.bits := by
  intro imp himp
  refine foldl_procPair_next
    (fun y => ∃ a b, a ∈ allImps g ∧ b ∈ allImps g ∧ combine a.bits b.bits = some y.bits)
    (pairsOf g) ⟨[], [], false⟩ ?_ ?_ imp himp
  · intro y hy
    cases hy
  · intro p hp c hcomb
    exact ⟨p.1, p.2, (pairsOf_mem hp).1, (pairsOf_mem hp).2, hcomb⟩

theorem stepRound_anyC_false (g : List (Nat × List Implicant)) (acc : List Implicant)
    (h : (stepRound g acc).2.2 = false) : roundState g = ⟨[], [], false⟩ :=
  foldl_procPair_anyC_false (pairsOf g) ⟨[], [], false⟩ h

theorem stepRound_acc_mono (g : List (Nat × List Implicant)) (acc : List Implicant) :
    ∀ imp ∈ acc, imp ∈ (stepRound g acc).2.1 :=
  collectPrimes_mono

theorem stepRound_acc_orig {g : List (Nat × List Implicant)} {acc : List Implicant} :
    ∀ imp ∈ (stepRound g acc).2.1, imp ∈ acc ∨ imp ∈ allImps g :=
  collectPrimes_orig

theorem stepRound_covers {g : List (Nat × List Implicant)} {acc : List Implicant}
    {m w : Nat} (hlen : AllLenGe g w)
    (hcov : CoversIn (allImps g) m w ∨ CoversIn acc m w) :
    ((stepRound g acc).2.2 = true →
      CoversIn (allImps (stepRound g acc).1) m w ∨ CoversIn (stepRound g acc).2.1 m w) ∧
    ((stepRound g acc).2.2 = false → CoversIn (stepRound g acc).2.1 m w) := by
  rcases hcov with ⟨imp, himp, hc⟩ | ⟨imp, himp, hc⟩
  · constructor
    · intro _
      by_cases htk : imp.bits ∈ (roundState g).taken
      · obtain ⟨a, b, out, ha, hb, hcomb, hor, x, hx, hbits⟩ :=
          roundState_taken_inv g imp.bits htk
        left
        refine ⟨x, hx, ?_⟩
        rw [hbits]
        refine coveredBy_combine hcomb (hlen a ha) ?_
        rcases hor with heq | heq
        · exact Or.inl (heq ▸ hc)
        · exact Or.inr (heq ▸ hc)
      · right
        obtain ⟨x, hx, hbits⟩ := collectPrimes_bits imp himp htk
        exact ⟨x, hx, hbits ▸ hc⟩
    · intro hany
      have hrs := stepRound_anyC_false g acc hany
      have htk : imp.bits ∉ (roundState g).taken := by
        rw [hrs]
        intro h
        cases h
      obtain ⟨x, hx, hbits⟩ := collectPrimes_bits imp himp htk
      exact ⟨x, hx, hbits ▸ hc⟩
  · have := stepRound_acc_mono g acc imp himp
    exact ⟨fun _ => Or.inr ⟨imp, this, hc⟩, fun _ => ⟨imp, this, hc⟩⟩

theorem stepRound_conc {g : List (Nat × List Implicant)} {acc : List Implicant} {c : Nat}
    (hc : AllConcLe g c) (hany : (stepRound g acc).2.2 = true) :
    1 ≤ c ∧ AllConcLe (stepRound g acc).1 (c - 1) := by
  have hex := foldl_procPair_exists_some (pairsOf g) ⟨[], [], false⟩ hany
  rcases hex with hfalse | ⟨p, hp, cc, hcomb⟩
  · cases hfalse
  · have hp1 := (pairsOf_mem hp).1
    have hconc := combineGo_conc hcomb
    have hle := hc p.1 hp1
    refine ⟨by omega, ?_⟩
    intro imp himp
    obtain ⟨a, b, hA, _, hcomb'⟩ := stepRound_next_orig imp himp
    have h1 := combineGo_conc hcomb'
    have h2 := hc a hA
    omega

theorem stepRound_lenGe {g : List (Nat × List Implicant)} {acc : List Implicant} {w : Nat}
    (hw : AllLenGe g w) : AllLenGe (stepRound g acc).1 w := by
  intro imp himp
  obtain ⟨a, _, hA, _, hcomb⟩ := stepRound_next_orig imp himp
  have := combineGo_length hcomb
  rw [this]
  exact hw a hA

/-! ### Loop lemmas: stability, round bound, coverage, closure -/

/-- Above the concrete-count threshold the fuel is irrelevant: the modelled
loop has reached the fixpoint of the source's `while (true)` loop. -/
theorem qmLoop_succ (n : Nat) (g : List (Nat × List Implicant)) (acc : List Implicant) :
    qmLoop (n + 1) g acc =
      if (stepRound g acc).2.2 = true then
        qmLoop n (stepRound g acc).1 (stepRound g acc).2.1
      else (stepRound g acc).2.1 := rfl

theorem qmRounds_succ (n : Nat) (g : List (Nat × List Implicant)) (acc : List Implicant) :
    qmRounds (n + 1) g acc =
      if (stepRound g acc).2.2 = true then
        qmRounds n (stepRound g acc).1 (stepRound g acc).2.1 + 1
      else 0 := rfl

theorem qmLoop_stable :
    ∀ (c : Nat) (g : List (Nat × List Implicant)) (acc : List Implicant) (k : Nat),
      AllConcLe g c → qmLoop (c + 1) g acc = qmLoop (c + 1 + k) g acc := by
  intro c
  induction c with
  | zero =>
    intro g acc k hc
    rw [show 0 + 1 + k = k + 1 by omega]
    rw [qmLoop_succ 0 g acc, qmLoop_succ k g acc]
    by_cases hany : (stepRound g acc).2.2 = true
    · exfalso
      have := (stepRound_conc hc hany).1
      omega
    · rw [if_neg hany, if_neg hany]
  | succ c' ih =>
    intro g acc k hc
    rw [show c' + 1 + 1 + k = (c' + 1 + k) + 1 by omega]
    rw [qmLoop_succ (c' + 1) g acc, qmLoop_succ (c' + 1 + k) g acc]
    by_cases hany : (stepRound g acc).2.2 = true
    · rw [if_pos hany, if_pos hany]
      exact ih (stepRound g acc).1 (stepRound g acc).2.1 k
        (by simpa using (stepRound_conc hc hany).2)
    · rw [if_neg hany, if_neg hany]

/-- The loop executes at most `c` merging rounds when every pattern has at
most `c` concrete characters. -/
theorem qmRounds_le :
    ∀ (fuel : Nat) (g : List (Nat × List Implicant)) (acc : List Implicant) (c : Nat),
      AllConcLe g c → qmRounds fuel g acc ≤ c := by
  intro fuel
  induction fuel with
  | zero =>
    intro g acc c _
    exact Nat.zero_le c
  | succ fuel ih =>
    intro g acc c hc
    rw [qmRounds_succ fuel g acc]
    by_cases hany : (stepRound g acc).2.2 = true
    · rw [if_pos hany]
      have h1 := stepRound_conc hc hany
      have h2 := ih (stepRound g acc).1 (stepRound g acc).2.1 (c - 1) h1.2
      omega
    · rw [if_neg hany]
      exact Nat.zero_le c

/-- Coverage of a minterm survives the whole loop, given enough fuel. -/
theorem qmLoop_covers :
    ∀ (fuel : Nat) (g : List (Nat × List Implicant)) (acc : List Implicant)
      (c m w : Nat), AllConcLe g c → c < fuel → AllLenGe g w →
      (CoversIn (allImps g) m w ∨ CoversIn acc m w) →
      CoversIn (qmLoop fuel g acc) m w := by
  intro fuel
  induction fuel with
  | zero =>
    intro g acc c m w _ hlt _ _
    omega
  | succ fuel ih =>
    intro g acc c m w hc hlt hw hcov
    rw [qmLoop_succ fuel g acc]
    by_cases hany : (stepRound g acc).2.2 = true
    · rw [if_pos hany]
      have h1 := stepRound_conc hc hany
      refine ih (stepRound g acc).1 (stepRound g acc).2.1 (c - 1) m w h1.2 (by omega)
        (stepRound_lenGe hw) ?_
      exact (stepRound_covers hw hcov).1 hany
    · rw [if_neg hany]
      rw [Bool.not_eq_true] at hany
      exact (stepRound_covers hw hcov).2 hany

/-- Every implicant the loop returns satisfies any property that holds in
the groups and the accumulator and is preserved by `combine`. -/
theorem qmLoop_pred {P : List Char → Prop}
    (hclosed : ∀ a b c : List Char, combine a b = some c → P a → P c) :
    ∀ (fuel : Nat) (g : List (Nat × List Implicant)) (acc : List Implicant),
      (∀ imp ∈ allImps g, P imp.bits) → (∀ imp ∈ acc, P imp.bits) →
      ∀ imp ∈ qmLoop fuel g acc, P imp.bits := by
  intro fuel
  induction fuel with
  | zero =>
    intro g acc _ hacc imp himp
    exact hacc imp himp
  | succ fuel ih =>
    intro g acc hg hacc imp himp
    rw [qmLoop_succ fuel g acc] at himp
    have hg' : ∀ imp ∈ allImps (stepRound g acc).1, P imp.bits := by
      intro y hy
      obtain ⟨a, _, hA, _, hcomb⟩ := stepRound_next_orig y hy
      exact hclosed a.bits _ _ hcomb (hg a hA)
    have hacc' : ∀ imp ∈ (stepRound g acc).2.1, P imp.bits := by
      intro y hy
      rcases stepRound_acc_orig y hy with h | h
      · exact hacc y h
      · exact hg y h
    by_cases hany : (stepRound g acc).2.2 = true
    · rw [if_pos hany] at himp
      exact ih (stepRound g acc).1 (stepRound g acc).2.1 hg' hacc' imp himp
    · rw [if_neg hany] at himp
      exact hacc' imp himp

/-! ### Initial groups and fuel -/

theorem initStep_iff (w : Nat) (g : List (Nat × List Implicant)) (m : Nat) (y : Implicant) :
    y ∈ allImps (initStep w g m) ↔
      y ∈ allImps g ∨ y = (⟨toBinary m w, [m]⟩ : Implicant) :=
  flatMap_nmapSet_append g (countOnes (toBinary m w)) ⟨toBinary m w, [m]⟩ y

theorem foldl_initStep_mono (w : Nat) :
    ∀ (univ : List Nat) (g : List (Nat × List Implicant)) (y : Implicant),
      y ∈ allImps g → y ∈ allImps (univ.foldl (initStep w) g) := by
  intro univ
  induction univ with
  | nil => exact fun g y h => h
  | cons m rest ih =>
    intro g y h
    rw [List.foldl_cons]
    exact ih (initStep w g m) y ((initStep_iff w g m y).mpr (Or.inl h))

theorem initGroups_mem {univ : List Nat} {w : Nat} :
    ∀ m ∈ univ, (⟨toBinary m w, [m]⟩ : Implicant) ∈ allImps (initGroups univ w) := by
  unfold initGroups
  generalize hg : ([] : List (Nat × List Implicant)) = g
  clear hg
  induction univ generalizing g with
  | nil =>
    intro m h
    cases h
  | cons x rest ih =>
    intro m h
    rw [List.foldl_cons]
    rcases List.mem_cons.mp h with rfl | h
    · exact foldl_initStep_mono w rest (initStep w g m) _
        ((initStep_iff w g m _).mpr (Or.inr rfl))
    · exact ih (initStep w g x) m h

theorem initGroups_elim {univ : List Nat} {w : Nat} :
    ∀ y ∈ allImps (initGroups univ w), ∃ m ∈ univ, y = (⟨toBinary m w, [m]⟩ : Implicant) := by
  unfold initGroups
  have : ∀ (u : List Nat) (g : List (Nat × List Implicant)) (y : Implicant),
      y ∈ allImps (u.foldl (initStep w) g) →
      y ∈ allImps g ∨ ∃ m ∈ u, y = (⟨toBinary m w, [m]⟩ : Implicant) := by
    intro u
    induction u with
    | nil => exact fun g y h => Or.inl h
    | cons x rest ih =>
      intro g y h
      rw [List.foldl_cons] at h
      rcases ih (initStep w g x) y h with h' | ⟨m, hm, rfl⟩
      · rcases (initStep_iff w g x y).mp h' with h'' | rfl
        · exact Or.inl h''
        · exact Or.inr ⟨x, List.mem_cons.mpr (Or.inl rfl), rfl⟩
      · exact Or.inr ⟨m, List.mem_cons.mpr (Or.inr hm), rfl⟩
  intro y hy
  rcases this univ [] y hy with h | h
  · cases h
  · exact h

theorem allConcLe_groupFuel (g : List (Nat × List Implicant)) :
    AllConcLe g (groupFuel g - 1) := by
  intro imp himp
  unfold groupFuel
  rw [Nat.add_sub_cancel]
  exact le_foldl_max _ 0 _ (List.mem_map.mpr ⟨imp, himp, rfl⟩)

theorem allPrimeOf_stable (opts : SolveOptions) (k : Nat) :
    allPrimeOf opts =
      qmLoop (groupFuel (initGroupsOf opts) + k) (initGroupsOf opts) [] := by
  unfold allPrimeOf
  have h1 : 1 ≤ groupFuel (initGroupsOf opts) := by
    unfold groupFuel
    omega
  have := qmLoop_stable (groupFuel (initGroupsOf opts) - 1) (initGroupsOf opts) [] k
    (allConcLe_groupFuel (initGroupsOf opts))
  rw [show groupFuel (initGroupsOf opts) - 1 + 1 = groupFuel (initGroupsOf opts) by omega]
    at this
  exact this

theorem mem_mtsOf {opts : SolveOptions} {m : Nat} :
    m ∈ mtsOf opts ↔ m ∈ opts.minterms := by
  unfold mtsOf
  rw [mem_sortNat, mem_dedupFirst]

theorem mem_dcsOf {opts : SolveOptions} {m : Nat} :
    m ∈ dcsOf opts ↔ m ∈ opts.dontCares.getD [] := by
  unfold dcsOf
  rw [mem_sortNat, mem_dedupFirst]

theorem mem_universeOf {opts : SolveOptions} {m : Nat} :
    m ∈ universeOf opts ↔ m ∈ opts.minterms ∨ m ∈ opts.dontCares.getD [] := by
  unfold universeOf
  rw [mem_sortNat, mem_dedupFirst, List.mem_append, mem_mtsOf, mem_dcsOf]

theorem nodup_mtsOf (opts : SolveOptions) : (mtsOf opts).Nodup :=
  nodup_sortNat (nodup_dedupFirst _)

/-- Under in-range inputs all initial patterns have exactly `numInputs`
concrete characters. -/
theorem initGroupsOf_concLe {opts : SolveOptions}
    (h2 : 2 ≤ opts.numInputs)
    (hm : ∀ m ∈ opts.minterms, m < 2 ^ opts.numInputs)
    (hd : ∀ m ∈ opts.dontCares.getD [], m < 2 ^ opts.numInputs) :
    AllConcLe (initGroupsOf opts) opts.numInputs := by
  intro imp himp
  obtain ⟨m, hmu, rfl⟩ := initGroups_elim imp himp
  have hrange : m < 2 ^ opts.numInputs := by
    rcases mem_universeOf.mp hmu with h | h
    · exact hm m h
    · exact hd m h
  have hlen : (toBinary m opts.numInputs).length = opts.numInputs :=
    toBinary_length_eq hrange (by omega)
  calc concCount (toBinary m opts.numInputs) ≤ (toBinary m opts.numInputs).length :=
        List.countP_le_length _
    _ = opts.numInputs := hlen

/-! ### Claim theorems: the combining loop (termination and round bound) -/

/-- C7 counterexample: an accepted input (numInputs 2, all minterms out of
range) on which the loop executes 3 merging rounds, more than numInputs. -/
theorem qmRounds_exceeds_numInputs :
    2 ≤ (2 : Nat) ∧ (2 : Nat) ≤ 6 ∧
    ¬ (qmRounds (groupFuel (initGroupsOf ⟨2, [8, 9, 10, 11, 12, 13, 14, 15], none, none⟩))
        (initGroupsOf ⟨2, [8, 9, 10, 11, 12, 13, 14, 15], none, none⟩) [] ≤ 2) :=
  ⟨by decide, by decide, by decide⟩

/-- C7 (amended: in-range minterms and don't-cares): the combining loop
terminates — the modelled loop result is a fixpoint, unchanged by extra
fuel — after at most `numInputs` merging rounds (whatever the fuel), and
every merged pattern has the length of its left parent with exactly one
more '-' than it. -/
theorem loop_terminates_bounded (opts : SolveOptions)
    (h2 : 2 ≤ opts.numInputs) (h6 : opts.numInputs ≤ 6)
    (hm : ∀ m ∈ opts.minterms, m < 2 ^ opts.numInputs)
    (hd : ∀ m ∈ opts.dontCares.getD [], m < 2 ^ opts.numInputs) :
    (∀ fuel, qmRounds fuel (initGroupsOf opts) [] ≤ opts.numInputs) ∧
    (∀ k, allPrimeOf opts =
      qmLoop (groupFuel (initGroupsOf opts) + k) (initGroupsOf opts) []) ∧
    (∀ a b out : List Char, combine a b = some out →
      out.length = a.length ∧
      out.countP (fun ch => ch = '-') = a.countP (fun ch => ch = '-') + 1) := by
  refine ⟨fun fuel => qmRounds_le fuel _ [] opts.numInputs (initGroupsOf_concLe h2 hm hd),
    fun k => allPrimeOf_stable opts k, fun a b out h => ?_⟩
  have hlen := combineGo_length h
  have hconc := combineGo_conc h
  have ha := concCount_add_dash a
  have hout := concCount_add_dash out
  exact ⟨hlen, by omega⟩

theorem loop_terminates_bounded_witness :
    (2 ≤ (2 : Nat) ∧ (2 : Nat) ≤ 6 ∧
      (∀ m ∈ [0, 1, 2, 3], m < 2 ^ 2) ∧
      (∀ m ∈ ([] : List Nat), m < 2 ^ 2)) ∧
    ∀ fuel, qmRounds fuel (initGroupsOf ⟨2, [0, 1, 2, 3], none, some []⟩) [] ≤ 2 :=
  ⟨⟨by decide, by decide, by decide, by decide⟩,
   (loop_terminates_bounded ⟨2, [0, 1, 2, 3], none, some []⟩
     (by decide) (by decide) (by decide) (by decide)).1⟩

/-! ### Claim theorems: out-of-range minterms (counterexamples) -/

/-- C2 counterexample: numInputs 2, minterms [4]; the out-of-range minterm
4 appears in the `covered` array of the returned prime implicant "100"
(so it is not silently excluded from coverage). -/
theorem out_of_range_covered :
    minimizeKMapJS ⟨2, [4], none, none⟩ = Except.ok (solveCore ⟨2, [4], none, none⟩) ∧
    (4 : Nat) ≥ 2 ^ 2 ∧
    ∃ imp ∈ (solveCore ⟨2, [4], none, none⟩).primeImplicants, 4 ∈ imp.covered :=
  ⟨rfl, by decide, by decide⟩

/-- C3 counterexample: numInputs 2, minterms [4]; the returned prime
implicant has the 3-character bit string "100", longer than numInputs. -/
theorem out_of_range_bits_length :
    minimizeKMapJS ⟨2, [4], none, none⟩ = Except.ok (solveCore ⟨2, [4], none, none⟩) ∧
    ∃ imp ∈ (solveCore ⟨2, [4], none, none⟩).primeImplicants, imp.bits.length ≠ 2 :=
  ⟨rfl, by decide⟩

/-! ### Prime implicants cover every minterm -/

theorem initGroupsOf_lenGe (opts : SolveOptions) :
    AllLenGe (initGroupsOf opts) opts.numInputs := by
  intro imp himp
  obtain ⟨m, _, rfl⟩ := initGroups_elim imp himp
  exact toBinary_length_ge m opts.numInputs

theorem allPrimeOf_covers {opts : SolveOptions} :
    ∀ m ∈ universeOf opts, CoversIn (allPrimeOf opts) m opts.numInputs := by
  intro m hm
  unfold allPrimeOf
  have h1 : 1 ≤ groupFuel (initGroupsOf opts) := by
    unfold groupFuel
    omega
  refine qmLoop_covers (groupFuel (initGroupsOf opts)) (initGroupsOf opts) []
    (groupFuel (initGroupsOf opts) - 1) m opts.numInputs
    (allConcLe_groupFuel _) (by omega) (initGroupsOf_lenGe opts) ?_
  left
  exact ⟨⟨toBinary m opts.numInputs, [m]⟩, initGroups_mem m hm, coveredBy_self m opts.numInputs⟩

theorem uniqueByBitsAux_bits :
    ∀ (imps : List Implicant) (seen : List (List Char)) (imp : Implicant),
      imp ∈ imps → imp.bits ∉ seen →
      ∃ x ∈ uniqueByBitsAux imps seen, x.bits = imp.bits := by
  intro imps
  induction imps with
  | nil =>
    intro seen imp h
    cases h
  | cons y rest ih =>
    intro seen imp h hseen
    unfold uniqueByBitsAux
    rcases List.mem_cons.mp h with rfl | h
    · rw [if_neg hseen]
      exact ⟨imp, List.mem_cons.mpr (Or.inl rfl), rfl⟩
    · by_cases hy : y.bits ∈ seen
      · rw [if_pos hy]
        exact ih seen imp h hseen
      · rw [if_neg hy]
        by_cases hb : imp.bits = y.bits
        · exact ⟨y, List.mem_cons.mpr (Or.inl rfl), hb.symm⟩
        · obtain ⟨x, hx, hxb⟩ := ih (y.bits :: seen) imp h
            (fun hc => (List.mem_cons.mp hc).elim hb hseen)
          exact ⟨x, List.mem_cons.mpr (Or.inr hx), hxb⟩

theorem uniqueByBitsAux_sub :
    ∀ (imps : List Implicant) (seen : List (List Char)),
      ∀ x ∈ uniqueByBitsAux imps seen, x ∈ imps := by
  intro imps
  induction imps with
  | nil =>
    intro seen x h
    cases h
  | cons y rest ih =>
    intro seen x h
    unfold uniqueByBitsAux at h
    split at h
    · exact List.mem_cons.mpr (Or.inr (ih seen x h))
    · rcases List.mem_cons.mp h with rfl | h
      · exact List.mem_cons.mpr (Or.inl rfl)
      · exact List.mem_cons.mpr (Or.inr (ih _ x h))

theorem primeAt_eq {opts : SolveOptions} {i : Nat} (h : i < (primesOf opts).length) :
    primeAt opts i = (primesOf opts)[i] :=
  List.getD_eq_getElem (primesOf opts) default h

theorem primeAt_mem {opts : SolveOptions} {i : Nat} (h : i < (primesOf opts).length) :
    primeAt opts i ∈ primesOf opts := by
  rw [primeAt_eq h]
  exact List.getElem_mem h

theorem mem_covered_primesOf {opts : SolveOptions} {imp : Implicant}
    (h : imp ∈ primesOf opts) (m : Nat) :
    m ∈ imp.covered ↔ m ∈ mtsOf opts ∧ coveredBy imp.bits m opts.numInputs = true := by
  unfold primesOf at h
  rw [List.mem_map] at h
  obtain ⟨imp', _, rfl⟩ := h
  show m ∈ expandCoverage imp'.bits (mtsOf opts) opts.numInputs ↔ _
  unfold expandCoverage
  rw [List.mem_filter]

/-- Every required minterm is covered by some prime implicant (this holds
for out-of-range minterms too: the pattern generated from the minterm
itself covers it under the width-prefix comparison of `coveredBy`). -/
theorem primesOf_covers {opts : SolveOptions} :
    ∀ m ∈ mtsOf opts, ∃ i, i < (primesOf opts).length ∧ m ∈ (primeAt opts i).covered := by
  intro m hm
  have hmu : m ∈ universeOf opts := by
    rw [mem_universeOf]
    exact Or.inl (mem_mtsOf.mp hm)
  obtain ⟨imp, himp, hcov⟩ := allPrimeOf_covers m hmu
  obtain ⟨x, hx, hxb⟩ := uniqueByBitsAux_bits (allPrimeOf opts) [] imp himp
    (fun hc => by cases hc)
  have hximg : (⟨x.bits, expandCoverage x.bits (mtsOf opts) opts.numInputs⟩ : Implicant)
      ∈ primesOf opts := by
    unfold primesOf
    rw [List.mem_map]
    exact ⟨x, hx, rfl⟩
  obtain ⟨i, hi, hieq⟩ := List.mem_iff_getElem.mp hximg
  refine ⟨i, hi, ?_⟩
  rw [primeAt_eq hi, hieq]
  show m ∈ expandCoverage x.bits (mtsOf opts) opts.numInputs
  unfold expandCoverage
  rw [List.mem_filter]
  refine ⟨hm, ?_⟩
  rw [hxb]
  exact hcov

/-! ### The `mToImps` map -/

theorem nmapGetD_set_self {β : Type} :
    ∀ (mp : List (Nat × β)) (k : Nat) (v d : β), nmapGetD (nmapSet mp k v) k d = v := by
  intro mp
  induction mp with
  | nil =>
    intro k v d
    show nmapGetD [(k, v)] k d = v
    unfold nmapGetD
    rw [if_pos rfl]
  | cons e rest ih =>
    intro k v d
    unfold nmapSet
    split
    · unfold nmapGetD
      rw [if_pos rfl]
    · rename_i hne
      unfold nmapGetD
      rw [if_neg hne]
      exact ih k v d

theorem nmapGetD_set_other {β : Type} :
    ∀ (mp : List (Nat × β)) (k k' : Nat) (v d : β), k' ≠ k →
      nmapGetD (nmapSet mp k v) k' d = nmapGetD mp k' d := by
  intro mp
  induction mp with
  | nil =>
    intro k k' v d hne
    show nmapGetD [(k, v)] k' d = d
    unfold nmapGetD
    rw [if_neg (fun h => hne h.symm)]
    rfl
  | cons e rest ih =>
    intro k k' v d hne
    unfold nmapSet
    split
    · rename_i hk
      show nmapGetD ((k, v) :: rest) k' d = nmapGetD (e :: rest) k' d
      unfold nmapGetD
      rw [if_neg (fun h => hne h.symm), if_neg (by rw [hk]; exact fun h => hne h.symm)]
    · rename_i hk
      show nmapGetD (e :: nmapSet rest k v) k' d = nmapGetD (e :: rest) k' d
      unfold nmapGetD
      split
      · rfl
      · exact ih k k' v d hne

theorem mtiInner_fold_getD (i : Nat) :
    ∀ (cov : List Nat), cov.Nodup → ∀ (mp : List (Nat × List Nat)) (m' : Nat),
      nmapGetD (cov.foldl (mtiInner i) mp) m' [] =
        nmapGetD mp m' [] ++ (if m' ∈ cov then [i] else []) := by
  intro cov
  induction cov with
  | nil =>
    intro _ mp m'
    rw [List.foldl_nil, if_neg (by simp), List.append_nil]
  | cons m0 rest ih =>
    intro hnd mp m'
    rw [List.foldl_cons]
    have hnd' := List.nodup_cons.mp hnd
    rw [ih hnd'.2]
    by_cases hm : m' = m0
    · subst hm
      rw [if_neg hnd'.1]
      show nmapGetD (nmapSet mp m' (nmapGetD mp m' [] ++ [i])) m' [] ++ [] = _
      rw [nmapGetD_set_self, List.append_nil, if_pos (List.mem_cons.mpr (Or.inl rfl))]
    · show nmapGetD (nmapSet mp m0 (nmapGetD mp m0 [] ++ [i])) m' [] ++ _ = _
      rw [nmapGetD_set_other mp m0 m' _ [] hm]
      congr 1
      by_cases hr : m' ∈ rest
      · rw [if_pos hr, if_pos (List.mem_cons.mpr (Or.inr hr))]
      · rw [if_neg hr, if_neg (fun hc => (List.mem_cons.mp hc).elim hm hr)]

theorem mtiOuter_fold_getD (opts : SolveOptions) :
    ∀ (is : List Nat), (∀ i ∈ is, ((primeAt opts i).covered).Nodup) →
      ∀ (mp : List (Nat × List Nat)) (m' : Nat),
        nmapGetD (is.foldl (mtiOuter opts) mp) m' [] =
          nmapGetD mp m' [] ++ is.filter (fun i => m' ∈ (primeAt opts i).covered) := by
  intro is
  induction is with
  | nil =>
    intro _ mp m'
    rw [List.foldl_nil, List.filter_nil, List.append_nil]
  | cons i rest ih =>
    intro hnd mp m'
    rw [List.foldl_cons]
    rw [ih (fun j hj => hnd j (List.mem_cons.mpr (Or.inr hj)))]
    show nmapGetD (((primeAt opts i).covered).foldl (mtiInner i) mp) m' [] ++ _ = _
    rw [mtiInner_fold_getD i _ (hnd i (List.mem_cons.mpr (Or.inl rfl)))]
    rw [List.filter_cons]
    by_cases hm : m' ∈ (primeAt opts i).covered
    · rw [if_pos hm, if_pos (by simpa using hm)]
      simp
    · rw [if_neg hm, if_neg (by simpa using hm)]
      simp

theorem covered_nodup {opts : SolveOptions} {imp : Implicant} (h : imp ∈ primesOf opts) :
    imp.covered.Nodup := by
  unfold primesOf at h
  rw [List.mem_map] at h
  obtain ⟨imp', _, rfl⟩ := h
  exact List.Nodup.filter _ (nodup_mtsOf opts)

theorem lookupOf_eq (opts : SolveOptions) (m : Nat) :
    lookupOf opts m =
      (List.range (primesOf opts).length).filter
        (fun i => m ∈ (primeAt opts i).covered) := by
  unfold lookupOf mToImpsOf
  rw [mtiOuter_fold_getD opts _ ?_ [] m]
  · rfl
  · intro i hi
    rw [List.mem_range] at hi
    exact covered_nodup (primeAt_mem hi)

theorem mem_lookupOf {opts : SolveOptions} {m i : Nat} :
    i ∈ lookupOf opts m ↔ i < (primesOf opts).length ∧ m ∈ (primeAt opts i).covered := by
  rw [lookupOf_eq, List.mem_filter, List.mem_range]
  simp

/-! ### Essential implicants, covered minterms, remaining minterms -/

theorem mem_foldl_addIfNew :
    ∀ (l : List Nat) (acc : List Nat) (x : Nat),
      x ∈ l.foldl addIfNew acc ↔ x ∈ acc ∨ x ∈ l := by
  intro l acc x
  rw [foldl_mem_iff addIfNew (fun y x => x = y) (fun acc y x => mem_addIfNew) l acc x]
  constructor
  · rintro (h | ⟨y, hy, rfl⟩)
    · exact Or.inl h
    · exact Or.inr hy
  · rintro (h | h)
    · exact Or.inl h
    · exact Or.inr ⟨x, h, rfl⟩

theorem mem_essentialIdxOf {opts : SolveOptions} {i : Nat} :
    i ∈ essentialIdxOf opts ↔ ∃ m ∈ mtsOf opts, lookupOf opts m = [i] := by
  unfold essentialIdxOf
  rw [foldl_mem_iff (essStep opts) (fun m i => lookupOf opts m = [i]) ?_ (mtsOf opts) [] i]
  · constructor
    · rintro (h | h)
      · cases h
      · exact h
    · exact fun h => Or.inr h
  · intro acc m x
    unfold essStep
    cases hl : lookupOf opts m with
    | nil =>
      dsimp only
      rw [hl]
      simp
    | cons j rest =>
      cases rest with
      | nil =>
        dsimp only
        rw [hl, mem_addIfNew]
        constructor
        · rintro (h | rfl)
          · exact Or.inl h
          · exact Or.inr rfl
        · rintro (h | h)
          · exact Or.inl h
          · injection h with h1 _
            exact Or.inr h1.symm
      | cons k rest' =>
        dsimp only
        rw [hl]
        simp

theorem essentialIdxOf_lt {opts : SolveOptions} {i : Nat} (h : i ∈ essentialIdxOf opts) :
    i < (primesOf opts).length := by
  obtain ⟨m, _, hl⟩ := mem_essentialIdxOf.mp h
  have : i ∈ lookupOf opts m := by
    rw [hl]
    exact List.mem_cons.mpr (Or.inl rfl)
  exact (mem_lookupOf.mp this).1

theorem mem_essCoveredOf {opts : SolveOptions} {m : Nat} :
    m ∈ essCoveredOf opts ↔ ∃ ei ∈ essentialIdxOf opts, m ∈ (primeAt opts ei).covered := by
  unfold essCoveredOf
  rw [foldl_mem_iff (fun acc ei => ((primeAt opts ei).covered).foldl addIfNew acc)
    (fun ei m => m ∈ (primeAt opts ei).covered)
    (fun acc ei x => mem_foldl_addIfNew _ acc x) _ [] m]
  constructor
  · rintro (h | h)
    · cases h
    · exact h
  · exact fun h => Or.inr h

theorem mem_remainingOf {opts : SolveOptions} {m : Nat} :
    m ∈ remainingOf opts ↔ m ∈ mtsOf opts ∧ m ∉ essCoveredOf opts := by
  unfold remainingOf
  rw [List.mem_filter]
  simp

theorem mem_chosenOf {opts : SolveOptions} {i : Nat} :
    i ∈ chosenOf opts ↔
      i ∈ essentialIdxOf opts ∨
      (remainingOf opts ≠ [] ∧ i ∈ petricksMethod (coverSetsOf opts)) := by
  unfold chosenOf
  split
  · rename_i hr
    constructor
    · exact fun h => Or.inl h
    · rintro (h | ⟨hne, _⟩)
      · exact h
      · exact absurd hr hne
  · rename_i hr
    rw [mem_foldl_addIfNew]
    constructor
    · rintro (h | h)
      · exact Or.inl h
      · exact Or.inr ⟨hr, h⟩
    · rintro (h | ⟨_, h⟩)
      · exact Or.inl h
      · exact Or.inr h

theorem mem_selectedOf {opts : SolveOptions} {imp : Implicant} :
    imp ∈ selectedOf opts ↔ ∃ i ∈ chosenOf opts, imp = primeAt opts i := by
  unfold selectedOf
  rw [List.mem_map]
  constructor
  · rintro ⟨i, hi, rfl⟩
    exact ⟨i, mem_sortNat.mp hi, rfl⟩
  · rintro ⟨i, hi, rfl⟩
    exact ⟨i, mem_sortNat.mpr hi, rfl⟩

theorem mem_essentialPIsOf {opts : SolveOptions} {imp : Implicant} :
    imp ∈ essentialPIsOf opts ↔ ∃ i ∈ essentialIdxOf opts, imp = primeAt opts i := by
  unfold essentialPIsOf
  rw [List.mem_map]
  constructor
  · rintro ⟨i, hi, rfl⟩
    exact ⟨i, mem_sortNat.mp hi, rfl⟩
  · rintro ⟨i, hi, rfl⟩
    exact ⟨i, mem_sortNat.mpr hi, rfl⟩

/-! ### Petrick's method -/

theorem msStep_eq (st : List (List Nat) × List (List Nat)) (s : List Nat) :
    msStep st s =
      if s ∈ st.2 then st
      else if (domScan st.1 s).1 = true then ((domScan st.1 s).2, st.2)
      else ((domScan st.1 s).2 ++ [s], st.2 ++ [s]) := rfl

theorem domScan_sub : ∀ (l : List (List Nat)) (s : List Nat),
    ∀ x ∈ (domScan l s).2, x ∈ l := by
  intro l
  induction l with
  | nil =>
    intro s x h
    cases h
  | cons u rest ih =>
    intro s x h
    unfold domScan at h
    split at h
    · exact h
    · split at h
      · exact List.mem_cons.mpr (Or.inr (ih s x h))
      · rcases List.mem_cons.mp h with rfl | h'
        · exact List.mem_cons.mpr (Or.inl rfl)
        · exact List.mem_cons.mpr (Or.inr (ih s x h'))

theorem domScan_true_ne_nil : ∀ (l : List (List Nat)) (s : List Nat),
    (domScan l s).1 = true → (domScan l s).2 ≠ [] := by
  intro l
  induction l with
  | nil =>
    intro s h
    cases h
  | cons u rest ih =>
    intro s h
    unfold domScan at h ⊢
    split at h
    · rename_i h1
      rw [if_pos h1]
      simp
    · split at h
      · rename_i h1 h2
        rw [if_neg h1, if_pos h2]
        exact ih s h
      · rename_i h1 h2
        rw [if_neg h1, if_neg h2]
        simp

theorem msFold_pred {P : List Nat → Prop} :
    ∀ (l : List (List Nat)) (st : List (List Nat) × List (List Nat)),
      (∀ x ∈ st.1, P x) → (∀ s ∈ l, P s) →
      ∀ x ∈ (l.foldl msStep st).1, P x := by
  intro l
  induction l with
  | nil => exact fun st hst _ => hst
  | cons s rest ih =>
    intro st hst hl
    rw [List.foldl_cons]
    refine ih (msStep st s) ?_ (fun y hy => hl y (List.mem_cons.mpr (Or.inr hy)))
    intro x hx
    rw [msStep_eq] at hx
    split at hx
    · exact hst x hx
    · split at hx
      · exact hst x (domScan_sub st.1 s x hx)
      · rcases List.mem_append.mp hx with h | h
        · exact hst x (domScan_sub st.1 s x h)
        · rw [List.mem_singleton] at h
          exact h ▸ hl s (List.mem_cons.mpr (Or.inl rfl))

theorem msFold_ne_nil :
    ∀ (l : List (List Nat)) (st : List (List Nat) × List (List Nat)),
      st.1 ≠ [] → (l.foldl msStep st).1 ≠ [] := by
  intro l
  induction l with
  | nil => exact fun st h => h
  | cons s rest ih =>
    intro st hst
    rw [List.foldl_cons]
    refine ih (msStep st s) ?_
    rw [msStep_eq]
    split
    · exact hst
    · split
      · rename_i h2
        exact domScan_true_ne_nil st.1 s h2
      · simp

theorem minimizeSets_sub (sets : List (List Nat)) :
    ∀ x ∈ minimizeSets sets, x ∈ sets := by
  intro x hx
  refine msFold_pred (sortByLen sets) ([], []) ?_ ?_ x hx
  · intro y hy
    cases hy
  · intro s hs
    exact mem_sortByLen.mp hs

theorem minimizeSets_ne_nil {sets : List (List Nat)} (h : sets ≠ []) :
    minimizeSets sets ≠ [] := by
  obtain ⟨s, t, hst⟩ := List.exists_cons_of_ne_nil (sortByLen_ne_nil h)
  unfold minimizeSets
  rw [hst, List.foldl_cons]
  refine msFold_ne_nil t (msStep ([], []) s) ?_
  rw [msStep_eq]
  rw [if_neg (by simp)]
  rw [if_neg (by simp [domScan])]
  simp

theorem petrickExpand_mem {sols : List (List Nat)} {cl : List Nat} :
    ∀ x ∈ petrickExpand sols cl, ∃ sol ∈ sols, ∃ c ∈ cl,
      x = sortNat (dedupFirst (sol ++ [c])) := by
  intro x hx
  unfold petrickExpand at hx
  rw [List.mem_flatMap] at hx
  obtain ⟨sol, hsol, hx⟩ := hx
  rw [List.mem_map] at hx
  obtain ⟨c, hc, rfl⟩ := hx
  exact ⟨sol, hsol, c, hc, rfl⟩

theorem petrickExpand_ne_nil {sols : List (List Nat)} {cl : List Nat}
    (hs : sols ≠ []) (hc : cl ≠ []) : petrickExpand sols cl ≠ [] := by
  obtain ⟨s, _, rfl⟩ := List.exists_cons_of_ne_nil hs
  obtain ⟨c, _, rfl⟩ := List.exists_cons_of_ne_nil hc
  refine List.ne_nil_of_mem (a := sortNat (dedupFirst (s ++ [c]))) ?_
  unfold petrickExpand
  rw [List.mem_flatMap]
  exact ⟨s, List.mem_cons.mpr (Or.inl rfl),
    List.mem_map.mpr ⟨c, List.mem_cons.mpr (Or.inl rfl), rfl⟩⟩

theorem petrickFold_parent :
    ∀ (cls : List (List Nat)) (sols : List (List Nat)),
      ∀ sol' ∈ cls.foldl (fun sols choices => minimizeSets (petrickExpand sols choices)) sols,
        ∃ sol ∈ sols, (∀ x ∈ sol, x ∈ sol') ∧
          (∀ cl ∈ cls, ∃ c ∈ cl, c ∈ sol') ∧
          (∀ x ∈ sol', x ∈ sol ∨ ∃ cl ∈ cls, x ∈ cl) := by
  intro cls
  induction cls with
  | nil =>
    intro sols sol' h
    refine ⟨sol', h, fun x hx => hx, ?_, fun x hx => Or.inl hx⟩
    intro cl hcl
    cases hcl
  | cons cl cls ih =>
    intro sols sol' h
    rw [List.foldl_cons] at h
    obtain ⟨s', hs', hsub, hhits, helems⟩ := ih (minimizeSets (petrickExpand sols cl)) sol' h
    obtain ⟨sol, hsol, c, hc, rfl⟩ := petrickExpand_mem _
      (minimizeSets_sub (petrickExpand sols cl) s' hs')
    have hmem : ∀ x, x ∈ sortNat (dedupFirst (sol ++ [c])) ↔ x ∈ sol ∨ x = c := by
      intro x
      rw [mem_sortNat, mem_dedupFirst, List.mem_append, List.mem_singleton]
    refine ⟨sol, hsol, ?_, ?_, ?_⟩
    · intro x hx
      exact hsub x ((hmem x).mpr (Or.inl hx))
    · intro cl' hcl'
      rcases List.mem_cons.mp hcl' with rfl | hcl'
      · exact ⟨c, hc, hsub c ((hmem c).mpr (Or.inr rfl))⟩
      · exact hhits cl' hcl'
    · intro x hx
      rcases helems x hx with hx' | ⟨cl', hcl', hx'⟩
      · rcases (hmem x).mp hx' with h' | rfl
        · exact Or.inl h'
        · exact Or.inr ⟨cl, List.mem_cons.mpr (Or.inl rfl), hc⟩
      · exact Or.inr ⟨cl', List.mem_cons.mpr (Or.inr hcl'), hx'⟩

theorem petrickFold_ne_nil :
    ∀ (cls : List (List Nat)) (sols : List (List Nat)),
      sols ≠ [] → (∀ cl ∈ cls, cl ≠ []) →
      cls.foldl (fun sols choices => minimizeSets (petrickExpand sols choices)) sols ≠ [] := by
  intro cls
  induction cls with
  | nil => exact fun sols h _ => h
  | cons cl cls ih =>
    intro sols hs hcl
    rw [List.foldl_cons]
    refine ih _ ?_ (fun c hc => hcl c (List.mem_cons.mpr (Or.inr hc)))
    exact minimizeSets_ne_nil
      (petrickExpand_ne_nil hs (hcl cl (List.mem_cons.mpr (Or.inl rfl))))

theorem petrickSolutions_parent {cls : List (List Nat)} :
    ∀ sol' ∈ petrickSolutions cls,
      (∀ cl ∈ cls, ∃ c ∈ cl, c ∈ sol') ∧ (∀ x ∈ sol', ∃ cl ∈ cls, x ∈ cl) := by
  intro sol' h
  obtain ⟨sol, hsol, _, hhits, helems⟩ := petrickFold_parent cls [[]] sol' h
  rw [List.mem_singleton] at hsol
  subst hsol
  refine ⟨hhits, fun x hx => ?_⟩
  rcases helems x hx with h' | h'
  · cases h'
  · exact h'

theorem petrickSolutions_ne_nil {cls : List (List Nat)} (h : ∀ cl ∈ cls, cl ≠ []) :
    petrickSolutions cls ≠ [] :=
  petrickFold_ne_nil cls [[]] (by simp) h

theorem petricksMethod_mem {cls : List (List Nat)} (h : ∀ cl ∈ cls, cl ≠ []) :
    petricksMethod cls ∈ petrickSolutions cls ∧
      ∀ s ∈ petrickSolutions cls, (petricksMethod cls).length ≤ s.length := by
  unfold petricksMethod
  exact sortByLen_head_min (sortByLen_ne_nil (petrickSolutions_ne_nil h))

theorem petricksMethod_hits {cls : List (List Nat)} (h : ∀ cl ∈ cls, cl ≠ []) :
    ∀ cl ∈ cls, ∃ c ∈ cl, c ∈ petricksMethod cls :=
  (petrickSolutions_parent _ (petricksMethod_mem h).1).1

theorem petricksMethod_elements (cls : List (List Nat)) :
    ∀ x ∈ petricksMethod cls, ∃ cl ∈ cls, x ∈ cl := by
  intro x hx
  by_cases hs : sortByLen (petrickSolutions cls) = []
  · unfold petricksMethod at hx
    rw [hs] at hx
    cases hx
  · have hhead : petricksMethod cls ∈ petrickSolutions cls := by
      unfold petricksMethod
      exact (sortByLen_head_min hs).1
    exact (petrickSolutions_parent _ hhead).2 x hx

/-! ### Validity of chosen indices; completeness -/

theorem chosenOf_lt {opts : SolveOptions} {i : Nat} (h : i ∈ chosenOf opts) :
    i < (primesOf opts).length := by
  rcases mem_chosenOf.mp h with h | ⟨_, h⟩
  · exact essentialIdxOf_lt h
  · obtain ⟨cl, hcl, hicl⟩ := petricksMethod_elements (coverSetsOf opts) i h
    unfold coverSetsOf at hcl
    rw [List.mem_map] at hcl
    obtain ⟨m, _, rfl⟩ := hcl
    exact (mem_lookupOf.mp hicl).1

theorem coverSetsOf_ne_nil {opts : SolveOptions} :
    ∀ cl ∈ coverSetsOf opts, cl ≠ [] := by
  intro cl hcl
  unfold coverSetsOf at hcl
  rw [List.mem_map] at hcl
  obtain ⟨m, hm, rfl⟩ := hcl
  have hmts : m ∈ mtsOf opts := (mem_remainingOf.mp hm).1
  obtain ⟨i, hi, hcov⟩ := primesOf_covers m hmts
  exact List.ne_nil_of_mem (mem_lookupOf.mpr ⟨hi, hcov⟩)

/-- Selected implicants cover exactly the required minterm set (holds for
any accepted input; stated with the claim's range hypotheses). -/
theorem selectedOf_covers_iff (opts : SolveOptions) (m : Nat) :
    (∃ imp ∈ selectedOf opts, m ∈ imp.covered) ↔ m ∈ mtsOf opts := by
  constructor
  · rintro ⟨imp, himp, hmc⟩
    obtain ⟨i, hi, rfl⟩ := mem_selectedOf.mp himp
    exact ((mem_covered_primesOf (primeAt_mem (chosenOf_lt hi)) m).mp hmc).1
  · intro hmts
    by_cases hcov : m ∈ essCoveredOf opts
    · obtain ⟨ei, hei, hc⟩ := mem_essCoveredOf.mp hcov
      exact ⟨primeAt opts ei,
        mem_selectedOf.mpr ⟨ei, mem_chosenOf.mpr (Or.inl hei), rfl⟩, hc⟩
    · have hrem : m ∈ remainingOf opts := mem_remainingOf.mpr ⟨hmts, hcov⟩
      have hrne : remainingOf opts ≠ [] := List.ne_nil_of_mem hrem
      have hclm : lookupOf opts m ∈ coverSetsOf opts := by
        unfold coverSetsOf
        rw [List.mem_map]
        exact ⟨m, hrem, rfl⟩
      obtain ⟨c, hc, hcp⟩ := petricksMethod_hits coverSetsOf_ne_nil (lookupOf opts m) hclm
      exact ⟨primeAt opts c,
        mem_selectedOf.mpr ⟨c, mem_chosenOf.mpr (Or.inr ⟨hrne, hcp⟩), rfl⟩,
        (mem_lookupOf.mp hc).2⟩

/-! ### Claim theorems: completeness and Petrick -/

/-- C1: for valid inputs the union of the `covered` arrays of the selected
implicants equals, as a set, the deduplicated ascending-sorted minterms
list exactly. -/
theorem kmap_completeness (opts : SolveOptions)
    (h2 : 2 ≤ opts.numInputs) (h6 : opts.numInputs ≤ 6)
    (hm : ∀ m ∈ opts.minterms, m < 2 ^ opts.numInputs)
    (hd : ∀ m ∈ opts.dontCares.getD [], m < 2 ^ opts.numInputs) :
    ∃ r, minimizeKMapJS opts = Except.ok r ∧
      ∀ m : Nat, (∃ imp ∈ r.selectedImplicants, m ∈ imp.covered) ↔
        m ∈ sortNat (dedupFirst opts.minterms) :=
  ⟨solveCore opts, minimizeKMapJS_ok_of_range h2 h6,
   fun m => selectedOf_covers_iff opts m⟩

theorem kmap_completeness_witness :
    (2 ≤ (4 : Nat) ∧ (4 : Nat) ≤ 6 ∧
      (∀ m ∈ [0, 2, 5, 7, 8, 10, 13, 15], m < 2 ^ 4) ∧
      (∀ m ∈ ([] : List Nat), m < 2 ^ 4)) ∧
    ∃ r, minimizeKMapJS ⟨4, [0, 2, 5, 7, 8, 10, 13, 15], some [], none⟩ = Except.ok r ∧
      ∀ m : Nat, (∃ imp ∈ r.selectedImplicants, m ∈ imp.covered) ↔
        m ∈ sortNat (dedupFirst [0, 2, 5, 7, 8, 10, 13, 15]) :=
  ⟨⟨by decide, by decide, by decide, by decide⟩,
   kmap_completeness ⟨4, [0, 2, 5, 7, 8, 10, 13, 15], some [], none⟩
     (by decide) (by decide) (by decide) (by decide)⟩

/-- C4: for non-empty clauses, `petricksMethod` returns a set of indices
hitting every clause, of minimum cardinality among the minimal
combinations surviving the final fold; on the empty clause list it
returns the empty set, and with no remaining minterm the selected
implicants are exactly the essential ones. -/
theorem petrick_minimal_cover (coverSets : List (List Nat))
    (hne : ∀ cl ∈ coverSets, cl ≠ []) :
    (∀ cl ∈ coverSets, ∃ c ∈ cl, c ∈ petricksMethod coverSets) ∧
    petricksMethod coverSets ∈ petrickSolutions coverSets ∧
    (∀ s ∈ petrickSolutions coverSets, (petricksMethod coverSets).length ≤ s.length) ∧
    petricksMethod [] = [] ∧
    (∀ (opts : SolveOptions) (r : SolveResult), minimizeKMapJS opts = Except.ok r →
      remainingOf opts = [] → r.selectedImplicants = r.essentialPrimeImplicants) := by
  refine ⟨petricksMethod_hits hne, (petricksMethod_mem hne).1, (petricksMethod_mem hne).2,
    rfl, ?_⟩
  intro opts r hok hrem
  have hr := minimizeKMapJS_ok hok
  subst hr
  show selectedOf opts = essentialPIsOf opts
  unfold selectedOf essentialPIsOf chosenOf
  rw [if_pos hrem]

theorem petrick_minimal_cover_witness :
    (∀ cl ∈ [[0], [1]], cl ≠ ([] : List Nat)) ∧
    (∀ cl ∈ [[0], [1]], ∃ c ∈ cl, c ∈ petricksMethod [[0], [1]]) ∧
    petricksMethod ([] : List (List Nat)) = [] :=
  ⟨by decide, (petrick_minimal_cover [[0], [1]] (by decide)).1,
   (petrick_minimal_cover [[0], [1]] (by decide)).2.2.2.1⟩

/-! ### Essentiality and well-formed bits -/

theorem filter_eq_singleton {l : List Nat} {p : Nat → Bool} {i : Nat}
    (h : l.filter p = [i]) :
    p i = true ∧ ∀ j ∈ l, p j = true → j = i := by
  have hi : i ∈ l.filter p := by
    rw [h]
    exact List.mem_cons.mpr (Or.inl rfl)
  have hmem := List.mem_filter.mp hi
  refine ⟨hmem.2, fun j hj hpj => ?_⟩
  have hjf : j ∈ l.filter p := List.mem_filter.mpr ⟨hj, hpj⟩
  rw [h] at hjf
  rcases List.mem_cons.mp hjf with h' | h'
  · exact h'
  · cases h'

/-- C5: every essential prime implicant covers a required minterm that no
other returned prime implicant covers. -/
theorem essential_uniquely_covers (opts : SolveOptions)
    (h2 : 2 ≤ opts.numInputs) (h6 : opts.numInputs ≤ 6)
    (hm : ∀ m ∈ opts.minterms, m < 2 ^ opts.numInputs)
    (hd : ∀ m ∈ opts.dontCares.getD [], m < 2 ^ opts.numInputs) :
    ∃ r, minimizeKMapJS opts = Except.ok r ∧
      ∀ e ∈ r.essentialPrimeImplicants, ∃ m ∈ sortNat (dedupFirst opts.minterms),
        m ∈ e.covered ∧ ∀ p ∈ r.primeImplicants, p ≠ e → m ∉ p.covered := by
  refine ⟨solveCore opts, minimizeKMapJS_ok_of_range h2 h6, ?_⟩
  intro e he
  obtain ⟨i, hi, rfl⟩ := mem_essentialPIsOf.mp he
  obtain ⟨m, hmts, hl⟩ := mem_essentialIdxOf.mp hi
  rw [lookupOf_eq] at hl
  have hsing := filter_eq_singleton hl
  refine ⟨m, hmts, of_decide_eq_true hsing.1, ?_⟩
  intro p hp hne hmp
  have hp' : p ∈ primesOf opts := hp
  obtain ⟨j, hj, hjeq⟩ := List.mem_iff_getElem.mp hp'
  have hji : j = i := hsing.2 j (List.mem_range.mpr hj)
    (decide_eq_true (by rw [primeAt_eq hj, hjeq]; exact hmp))
  subst hji
  exact hne ((primeAt_eq hj).trans hjeq).symm

theorem essential_uniquely_covers_witness :
    (2 ≤ (3 : Nat) ∧ (3 : Nat) ≤ 6 ∧
      (∀ m ∈ [1, 5, 6, 7], m < 2 ^ 3) ∧ (∀ m ∈ [0, 2], m < 2 ^ 3)) ∧
    ∃ r, minimizeKMapJS ⟨3, [1, 5, 6, 7], some [0, 2], none⟩ = Except.ok r ∧
      ∀ e ∈ r.essentialPrimeImplicants, ∃ m ∈ sortNat (dedupFirst [1, 5, 6, 7]),
        m ∈ e.covered ∧ ∀ p ∈ r.primeImplicants, p ≠ e → m ∉ p.covered :=
  ⟨⟨by decide, by decide, by decide, by decide⟩,
   essential_uniquely_covers ⟨3, [1, 5, 6, 7], some [0, 2], none⟩
     (by decide) (by decide) (by decide) (by decide)⟩

/-- C2 (amended): out-of-range minterms do not crash `minimizeKMapJS` — a
complete result is returned — but they are not excluded from coverage:
every minterm, out-of-range ones included, appears in the `covered` array
of some returned prime implicant, because `toBinary` pads but never
truncates and `coveredBy` compares only the first `numInputs` characters. -/
theorem out_of_range_not_excluded (opts : SolveOptions)
    (h2 : 2 ≤ opts.numInputs) (h6 : opts.numInputs ≤ 6) :
    ∃ r, minimizeKMapJS opts = Except.ok r ∧
      ∀ m ∈ opts.minterms, 2 ^ opts.numInputs ≤ m →
        ∃ imp ∈ r.primeImplicants, m ∈ imp.covered := by
  refine ⟨solveCore opts, minimizeKMapJS_ok_of_range h2 h6, ?_⟩
  intro m hmem _
  obtain ⟨i, hi, hcov⟩ := primesOf_covers m (mem_mtsOf.mpr hmem)
  exact ⟨primeAt opts i, primeAt_mem hi, hcov⟩

theorem out_of_range_not_excluded_witness :
    (2 ≤ (2 : Nat) ∧ (2 : Nat) ≤ 6) ∧
    ∃ r, minimizeKMapJS ⟨2, [4], none, none⟩ = Except.ok r ∧
      ∀ m ∈ [4], 2 ^ 2 ≤ m → ∃ imp ∈ r.primeImplicants, m ∈ imp.covered :=
  ⟨⟨by decide, by decide⟩,
   out_of_range_not_excluded ⟨2, [4], none, none⟩ (by decide) (by decide)⟩

theorem binDigitsAux_chars :
    ∀ (fuel n : Nat), ∀ c ∈ binDigitsAux fuel n, c = '0' ∨ c = '1' := by
  intro fuel
  induction fuel with
  | zero =>
    intro n c h
    cases h
  | succ fuel ih =>
    intro n c h
    unfold binDigitsAux at h
    split at h
    · cases h
    · rcases List.mem_append.mp h with h' | h'
      · exact ih (n / 2) c h'
      · rw [List.mem_singleton] at h'
        subst h'
        split
        · exact Or.inr rfl
        · exact Or.inl rfl

theorem toBinary_chars (n w : Nat) : ∀ c ∈ toBinary n w, c = '0' ∨ c = '1' := by
  intro c h
  unfold toBinary at h
  rcases List.mem_append.mp h with h' | h'
  · exact Or.inl (List.eq_of_mem_replicate h')
  · split at h'
    · rw [List.mem_singleton] at h'
      exact Or.inl h'
    · exact binDigitsAux_chars n n c h'

theorem primesOf_good {opts : SolveOptions}
    (h2 : 2 ≤ opts.numInputs)
    (hm : ∀ m ∈ opts.minterms, m < 2 ^ opts.numInputs)
    (hd : ∀ m ∈ opts.dontCares.getD [], m < 2 ^ opts.numInputs) :
    ∀ imp ∈ primesOf opts, imp.bits.length = opts.numInputs ∧
      ∀ c ∈ imp.bits, c = '0' ∨ c = '1' ∨ c = '-' := by
  intro imp himp
  unfold primesOf at himp
  rw [List.mem_map] at himp
  obtain ⟨x, hx, rfl⟩ := himp
  have hx' : x ∈ allPrimeOf opts := uniqueByBitsAux_sub _ [] x hx
  show x.bits.length = opts.numInputs ∧ ∀ c ∈ x.bits, c = '0' ∨ c = '1' ∨ c = '-'
  refine qmLoop_pred
    (P := fun bits => bits.length = opts.numInputs ∧
      ∀ c ∈ bits, c = '0' ∨ c = '1' ∨ c = '-') ?_ _ _ _ ?_ ?_ x hx'
  · intro a b c hcomb ha
    refine ⟨by rw [combineGo_length hcomb, ha.1], ?_⟩
    intro ch hch
    rcases combineGo_chars hcomb ch hch with h' | h'
    · exact Or.inr (Or.inr h')
    · exact ha.2 ch h'
  · intro y hy
    obtain ⟨m, hmu, rfl⟩ := initGroups_elim y hy
    have hrange : m < 2 ^ opts.numInputs := by
      rcases mem_universeOf.mp hmu with h | h
      · exact hm m h
      · exact hd m h
    refine ⟨toBinary_length_eq hrange (by omega), ?_⟩
    intro c hc
    rcases toBinary_chars m opts.numInputs c hc with h' | h'
    · exact Or.inl h'
    · exact Or.inr (Or.inl h')
  · intro y hy
    cases hy

/-- C3 (amended: in-range minterms and don't-cares): every `bits` string
in the returned prime, essential and selected implicants has length
exactly `numInputs` and uses only the characters '0', '1', '-'. -/
theorem bits_wellformed (opts : SolveOptions)
    (h2 : 2 ≤ opts.numInputs) (h6 : opts.numInputs ≤ 6)
    (hm : ∀ m ∈ opts.minterms, m < 2 ^ opts.numInputs)
    (hd : ∀ m ∈ opts.dontCares.getD [], m < 2 ^ opts.numInputs) :
    ∃ r, minimizeKMapJS opts = Except.ok r ∧
      (∀ imp ∈ r.primeImplicants, imp.bits.length = opts.numInputs ∧
        ∀ c ∈ imp.bits, c = '0' ∨ c = '1' ∨ c = '-') ∧
      (∀ imp ∈ r.essentialPrimeImplicants, imp.bits.length = opts.numInputs ∧
        ∀ c ∈ imp.bits, c = '0' ∨ c = '1' ∨ c = '-') ∧
      (∀ imp ∈ r.selectedImplicants, imp.bits.length = opts.numInputs ∧
        ∀ c ∈ imp.bits, c = '0' ∨ c = '1' ∨ c = '-') := by
  refine ⟨solveCore opts, minimizeKMapJS_ok_of_range h2 h6,
    primesOf_good h2 hm hd, ?_, ?_⟩
  · intro imp himp
    obtain ⟨i, hi, rfl⟩ := mem_essentialPIsOf.mp himp
    exact primesOf_good h2 hm hd _ (primeAt_mem (essentialIdxOf_lt hi))
  · intro imp himp
    obtain ⟨i, hi, rfl⟩ := mem_selectedOf.mp himp
    exact primesOf_good h2 hm hd _ (primeAt_mem (chosenOf_lt hi))

theorem bits_wellformed_witness :
    (2 ≤ (2 : Nat) ∧ (2 : Nat) ≤ 6 ∧
      (∀ m ∈ [0, 3], m < 2 ^ 2) ∧ (∀ m ∈ [1], m < 2 ^ 2)) ∧
    ∃ r, minimizeKMapJS ⟨2, [0, 3], some [1], none⟩ = Except.ok r ∧
      (∀ imp ∈ r.primeImplicants, imp.bits.length = 2 ∧
        ∀ c ∈ imp.bits, c = '0' ∨ c = '1' ∨ c = '-') ∧
      (∀ imp ∈ r.essentialPrimeImplicants, imp.bits.length = 2 ∧
        ∀ c ∈ imp.bits, c = '0' ∨ c = '1' ∨ c = '-') ∧
      (∀ imp ∈ r.selectedImplicants, imp.bits.length = 2 ∧
        ∀ c ∈ imp.bits, c = '0' ∨ c = '1' ∨ c = '-') :=
  ⟨⟨by decide, by decide, by decide, by decide⟩,
   bits_wellformed ⟨2, [0, 3], some [1], none⟩
     (by decide) (by decide) (by decide) (by decide)⟩

end KMap
